import Mathlib

/-!
Verification of the GridGuard board engine (`src/utils/gameLogic.ts`).

The board engine is a pure-functional Minesweeper core operating on a
rectangular grid of cells.  This file shallowly embeds the engine's data
model and operations in Lean 4 and proves the specified properties about
them.  JavaScript numbers used as indices are embedded as `Int` (positions
may be negative / out of bounds); counts are `Nat`.  The `{...cell}` copies
performed by the source are identities in a pure setting and are therefore
not represented.  The fallible out-of-bounds indexing in `toggleFlag` and
`toggleQuestion` (a TypeError in JavaScript) is embedded with `Option`.
-/

namespace GridGuard

/-- Embeds the `Cell` interface of `src/types/index.ts`: a single cell of the
grid.  The optional `isExploded?` field is embedded as a `Bool` that is
`false` when absent. -/
structure Cell where
  id : String
  row : Int
  col : Int
  isMine : Bool
  isRevealed : Bool
  isFlagged : Bool
  isQuestioned : Bool
  neighborMines : Nat
  isExploded : Bool := false
deriving Repr, DecidableEq

/-- Embeds the `Cell[][]` grids the engine operates on. -/
abbrev Board := List (List Cell)

/-- Embeds `Position`: an integer `(row, col)` pair. -/
abbrev Position := Int × Int

/-- Embeds `generateCellId`. -/
def generateCellId (row col : Int) : String :=
  "cell-" ++ toString row ++ "-" ++ toString col

/-- Embeds `createEmptyCell`. -/
def createEmptyCell (row col : Int) : Cell :=
  { id := generateCellId row col
    row := row
    col := col
    isMine := false
    isRevealed := false
    isFlagged := false
    isQuestioned := false
    neighborMines := 0 }

/-- Embeds `initializeEmptyBoard`. -/
def initializeEmptyBoard (rows cols : Nat) : Board :=
  (List.range rows).map fun row =>
    (List.range cols).map fun col => createEmptyCell row col

/-- Embeds `isValidPosition`. -/
def isValidPosition (row col : Int) (rows cols : Nat) : Bool :=
  0 ≤ row && row < (rows : Int) && 0 ≤ col && col < (cols : Int)

/-- Embeds the `DIRECTIONS` constant of `src/constants/index.ts`: the eight
king-move offsets. -/
def DIRECTIONS : List (Int × Int) :=
  [(-1, -1), (-1, 0), (-1, 1), (0, -1), (0, 1), (1, -1), (1, 0), (1, 1)]

/-- Embeds `getNeighborPositions`. -/
def getNeighborPositions (row col : Int) (rows cols : Nat) : List Position :=
  (DIRECTIONS.map fun d => (row + d.1, col + d.2)).filter
    fun pos => isValidPosition pos.1 pos.2 rows cols

/-- Embeds `cells[0].length` as the source computes the column count (0 when
the board has no rows; the source would throw there, and theorems that care
assume a nonempty board). -/
def numCols (cells : Board) : Nat := (cells.head?.getD []).length

/-- Embeds the indexing `cells[row][col]` as JavaScript evaluates it on
possibly out-of-range numbers: `none` plays the role of `undefined`. -/
def getCell? (cells : Board) (row col : Int) : Option Cell :=
  if row < 0 ∨ col < 0 then none
  else (cells[row.toNat]?).bind fun r => r[col.toNat]?

/-- Reads a cell with a default placeholder for out-of-range positions; used
only at positions the source has bounds-checked. -/
def getCellD (cells : Board) (row col : Int) : Cell :=
  (getCell? cells row col).getD (createEmptyCell row col)

/-- Updates one entry of a list in place (identity when the index is out of
range), embedding the source's single-element mutations of its fresh copy. -/
def modifyAt {α : Type} (l : List α) (i : Nat) (f : α → α) : List α :=
  match l, i with
  | [], _ => []
  | a :: as, 0 => f a :: as
  | a :: as, i + 1 => a :: modifyAt as i f

/-- Embeds the mutation `newCells[row][col] = f(newCells[row][col])`. -/
def setCell (cells : Board) (row col : Int) (f : Cell → Cell) : Board :=
  if row < 0 ∨ col < 0 then cells
  else modifyAt cells row.toNat fun r => modifyAt r col.toNat f

/-- Embeds `revealCell`, with a fuel argument making the source's recursion
structurally terminating; `revealCell` below instantiates the fuel with a
bound that is proved sufficient (`revealCellAux_fuel_stable`). -/
def revealCellAux : Nat → Board → Int → Int → Board
  | 0, cells, _, _ => cells
  | fuel + 1, cells, row, col =>
    let rows := cells.length
    let cols := numCols cells
    if ¬ isValidPosition row col rows cols then cells
    else
      let cell := getCellD cells row col
      if cell.isRevealed ∨ cell.isFlagged then cells
      else
        let newCells := setCell cells row col fun c => { c with isRevealed := true }
        if cell.neighborMines = 0 ∧ cell.isMine = false then
          (getNeighborPositions row col rows cols).foldl
            (fun acc p =>
              if (getCellD acc p.1 p.2).isRevealed = false ∧
                  (getCellD acc p.1 p.2).isFlagged = false then
                revealCellAux fuel acc p.1 p.2
              else acc)
            newCells
        else newCells

/-- Restates the nested `neighbors.forEach` loop of `revealCell` as a named
fold, for reasoning; `revealCellAux_succ` relates the two. -/
def revealFold (fuel : Nat) (ns : List Position) (acc : Board) : Board :=
  ns.foldl
    (fun acc p =>
      if (getCellD acc p.1 p.2).isRevealed = false ∧
          (getCellD acc p.1 p.2).isFlagged = false then
        revealCellAux fuel acc p.1 p.2
      else acc)
    acc

/-- Counts the cells of the board a flood fill could still reveal; the fuel
bound for `revealCell`. -/
def countUnrevealed (cells : Board) : Nat :=
  (cells.flatten.filter fun c => !c.isRevealed).length

/-- Embeds `revealCell`: the fuel instantiation is invisible to callers
because any fuel of at least `countUnrevealed cells` computes the same
board (`revealCellAux_fuel_stable`). -/
def revealCell (cells : Board) (row col : Int) : Board :=
  revealCellAux (countUnrevealed cells + 1) cells row col

/-- Embeds the in-place mutation the body of `toggleFlag` performs on the
target cell: flip `isFlagged`, and clear `isQuestioned` when the flag was
just set. -/
def toggleFlagCell (c : Cell) : Cell :=
  { c with
    isFlagged := !c.isFlagged
    isQuestioned := if !c.isFlagged then false else c.isQuestioned }

/-- Embeds the in-place mutation the body of `toggleQuestion` performs on
the target cell. -/
def toggleQuestionCell (c : Cell) : Cell :=
  { c with isQuestioned := !c.isQuestioned }

/-- Embeds `toggleFlag`.  The source indexes its copy unchecked, so an
out-of-bounds position throws a TypeError before any cell changes; that
fallible read is embedded as `none`. -/
def toggleFlag (cells : Board) (row col : Int) : Option Board :=
  match getCell? cells row col with
  | none => none
  | some cell =>
    some <|
      if cell.isRevealed = false then setCell cells row col toggleFlagCell
      else cells

/-- Embeds `toggleQuestion`, with the same `Option` treatment of the
unchecked indexing as `toggleFlag`. -/
def toggleQuestion (cells : Board) (row col : Int) : Option Board :=
  match getCell? cells row col with
  | none => none
  | some cell =>
    some <|
      if cell.isRevealed = false ∧ cell.isFlagged = false then
        setCell cells row col toggleQuestionCell
      else cells

/-- Embeds `getRevealedCount`. -/
def getRevealedCount (cells : Board) : Nat :=
  (cells.flatten.filter fun c => c.isRevealed).length

/-- Embeds `getFlagCount`. -/
def getFlagCount (cells : Board) : Nat :=
  (cells.flatten.filter fun c => c.isFlagged).length

/-- Embeds `checkWinCondition`; the subtraction is on JavaScript numbers, so
it is embedded over `Int` (it may be negative when `totalMines` exceeds the
cell count). -/
def checkWinCondition (cells : Board) (totalMines : Nat) : Bool :=
  let totalCells : Int := (cells.length : Int) * (numCols cells : Int)
  let revealedCells := getRevealedCount cells
  decide ((revealedCells : Int) = totalCells - (totalMines : Int))

/-- Embeds the per-cell object built inside `revealAllMines`: reveal mines,
mark the cell whose own `row`/`col` fields match the exploded position. -/
def revealMineCell (explodedRow explodedCol : Int) (cell : Cell) : Cell :=
  { cell with
    isRevealed := if cell.isMine then true else cell.isRevealed
    isExploded := cell.isMine && cell.row == explodedRow && cell.col == explodedCol }

/-- Embeds `revealAllMines`. -/
def revealAllMines (cells : Board) (explodedRow explodedCol : Int) : Board :=
  cells.map fun row => row.map (revealMineCell explodedRow explodedCol)

/-- Maps a function over a list together with its index, starting at `i`;
scaffolding for the row/column loops of the source. -/
def mapIdxFrom {α β : Type} (f : Nat → α → β) : Nat → List α → List β
  | _, [] => []
  | i, a :: as => f i a :: mapIdxFrom f (i + 1) as

/-- Embeds `calculateNeighborMines`.  The source's in-place loop only ever
writes `neighborMines` and only reads `isMine`, so reading from the evolving
copy equals reading from the input. -/
def calculateNeighborMines (cells : Board) : Board :=
  let rows := cells.length
  let cols := numCols cells
  mapIdxFrom
    (fun row r =>
      mapIdxFrom
        (fun col cell =>
          if cell.isMine = false then
            { cell with
              neighborMines :=
                ((getNeighborPositions row col rows cols).filter
                  fun pos => (getCellD cells pos.1 pos.2).isMine).length }
          else cell)
        0 r)
    0 cells

/-- Embeds the mutation `newCells[row][col].isMine = true` of `placeMines`. -/
def setMineCell (c : Cell) : Cell := { c with isMine := true }

/-- Lists every position of a `rows × cols` grid in the row-major order of
the source's nested `for` loops. -/
def gridPositions (rows cols : Nat) : List Position :=
  (List.range rows).flatMap fun r =>
    (List.range cols).map fun c => (Int.ofNat r, Int.ofNat c)

/-- Embeds the `excludedPositions` / `availablePositions` computation of
`placeMines`: every grid position whose id is not in the exclusion set built
from the first click and its neighbors.  The source keys the set by
`generateCellId` strings, which are injective in `(row, col)`, so membership
is embedded on positions. -/
def availablePositions (cells : Board) (firstClick : Position) : List Position :=
  let rows := cells.length
  let cols := numCols cells
  let excludedPositions : List Position :=
    firstClick :: getNeighborPositions firstClick.1 firstClick.2 rows cols
  (gridPositions rows cols).filter fun p => decide (p ∉ excludedPositions)

/-- Embeds `placeMines`.  The source shuffles `availablePositions` with
`sort(() => Math.random() - 0.5)`; that impure shuffle is embedded as an
oracle `shuffle` argument, and the theorems assume only that it permutes its
input. -/
def placeMines (shuffle : List Position → List Position) (cells : Board)
    (totalMines : Nat) (firstClick : Position) : Board :=
  let shuffled := shuffle (availablePositions cells firstClick)
  let minePositions := shuffled.take (min totalMines shuffled.length)
  minePositions.foldl (fun b p => setCell b p.1 p.2 setMineCell) cells

/-- A board is rectangular: every row has the length the source reads off
row 0.  Every board the engine constructs satisfies this. -/
def rectB (cells : Board) : Bool :=
  cells.all fun r => r.length == numCols cells

/-- Positions the source's bounds check accepts on this board. -/
def validB (cells : Board) (p : Position) : Bool :=
  isValidPosition p.1 p.2 cells.length (numCols cells)

/-- Reads the `isRevealed` field at a position (false out of bounds). -/
def getRev (cells : Board) (p : Position) : Bool :=
  (getCellD cells p.1 p.2).isRevealed

/-- Reads the `isFlagged` field at a position (false out of bounds). -/
def getFlg (cells : Board) (p : Position) : Bool :=
  (getCellD cells p.1 p.2).isFlagged

/-- Holds when the position carries a real cell that the flood fill expands
through: `neighborMines = 0` and not a mine. -/
def zeroCellB (cells : Board) (p : Position) : Bool :=
  match getCell? cells p.1 p.2 with
  | some c => c.neighborMines == 0 && !c.isMine
  | none => false

/-- King-move adjacency of two positions, as the difference vectors of
`DIRECTIONS`. -/
def adjacentB (p q : Position) : Bool :=
  DIRECTIONS.any fun d => q == (p.1 + d.1, p.2 + d.2)

/-- The connected zero-region of `start`: positions reachable from `start`
through chains of adjacent zero cells (empty when `start` is not a zero
cell). -/
inductive ZPath (cells : Board) (start : Position) : Position → Prop
  | refl : zeroCellB cells start = true → ZPath cells start start
  | step {p q : Position} : ZPath cells start p → adjacentB p q = true →
      zeroCellB cells q = true → ZPath cells start q

/-- The zero-region of `start` together with every cell bordering it: the
set of cells a flood-fill reveal starting at `start` is specified to
reveal. -/
def inClosure (cells : Board) (start p : Position) : Prop :=
  p = start ∨ ∃ q, ZPath cells start q ∧ adjacentB q p = true

/-! ## Basic lemmas about indexing and updating -/

theorem length_modifyAt {α : Type} (l : List α) (i : Nat) (f : α → α) :
    (modifyAt l i f).length = l.length := by
  induction l generalizing i with
  | nil => rfl
  | cons a as ih =>
    cases i with
    | zero => rfl
    | succ n => simpa [modifyAt] using ih n

theorem getElem?_modifyAt {α : Type} (l : List α) (i j : Nat) (f : α → α) :
    (modifyAt l i f)[j]? = if i = j then (l[j]?).map f else l[j]? := by
  induction l generalizing i j with
  | nil => simp [modifyAt]
  | cons a as ih =>
    cases i with
    | zero =>
      cases j with
      | zero => simp [modifyAt]
      | succ m => simp [modifyAt]
    | succ n =>
      cases j with
      | zero => simp [modifyAt]
      | succ m => simpa [modifyAt] using ih n m

theorem getCell?_none_of_neg (cells : Board) {r c : Int} (h : r < 0 ∨ c < 0) :
    getCell? cells r c = none := by
  simp [getCell?, h]

theorem getCell?_setCell (cells : Board) (row col r c : Int) (f : Cell → Cell) :
    getCell? (setCell cells row col f) r c =
      if r = row ∧ c = col then (getCell? cells r c).map f
      else getCell? cells r c := by
  simp only [setCell, getCell?]
  by_cases hneg' : r < 0 ∨ c < 0
  · rw [if_pos hneg']
    by_cases heq : r = row ∧ c = col
    · rw [if_pos heq, if_pos hneg']
      rfl
    · rw [if_neg heq, if_pos hneg']
  · rw [if_neg hneg']
    push_neg at hneg'
    obtain ⟨hr0, hc0⟩ := hneg'
    by_cases hneg : row < 0 ∨ col < 0
    · rw [if_pos hneg]
      have heq : ¬ (r = row ∧ c = col) := by
        rintro ⟨rfl, rfl⟩
        rcases hneg with h | h <;> omega
      rw [if_neg heq, if_neg (by omega : ¬ (r < 0 ∨ c < 0))]
    · rw [if_neg hneg]
      push_neg at hneg
      obtain ⟨hrow0, hcol0⟩ := hneg
      rw [getElem?_modifyAt]
      by_cases hr : r = row
      · subst hr
        rw [if_pos (by omega : r.toNat = r.toNat)]
        cases hrow : cells[r.toNat]? with
        | none =>
          by_cases hc : c = col
          · rw [if_pos ⟨rfl, hc⟩, if_neg (by omega : ¬ (r < 0 ∨ c < 0))]
            rfl
          · rw [if_neg (by rintro ⟨-, h⟩; exact hc h),
              if_neg (by omega : ¬ (r < 0 ∨ c < 0))]
            rfl
        | some rowCells =>
          show (modifyAt rowCells col.toNat f)[c.toNat]? = _
          rw [getElem?_modifyAt]
          by_cases hc : c = col
          · subst hc
            rw [if_pos rfl, if_pos ⟨rfl, rfl⟩,
              if_neg (by omega : ¬ (r < 0 ∨ c < 0))]
            rfl
          · rw [if_neg (by omega : ¬ col.toNat = c.toNat),
              if_neg (by rintro ⟨-, h⟩; exact hc h),
              if_neg (by omega : ¬ (r < 0 ∨ c < 0))]
            rfl
      · rw [if_neg (by omega : ¬ row.toNat = r.toNat),
          if_neg (by rintro ⟨h, -⟩; exact hr h),
          if_neg (by omega : ¬ (r < 0 ∨ c < 0))]

theorem numCols_eq_getElem (cells : Board) :
    numCols cells = ((cells[0]?).getD []).length := by
  cases cells <;> simp [numCols]

theorem length_setCell (cells : Board) (row col : Int) (f : Cell → Cell) :
    (setCell cells row col f).length = cells.length := by
  rw [setCell]
  split
  · rfl
  · exact length_modifyAt ..

theorem numCols_setCell (cells : Board) (row col : Int) (f : Cell → Cell) :
    numCols (setCell cells row col f) = numCols cells := by
  rw [numCols_eq_getElem, numCols_eq_getElem, setCell]
  split
  · rfl
  · rw [getElem?_modifyAt]
    split
    · cases h : cells[0]? with
      | none => simp
      | some r => simp [length_modifyAt]
    · rfl

theorem rectB_row_length {cells : Board} (hrect : rectB cells = true)
    {i : Nat} {row : List Cell} (h : cells[i]? = some row) :
    row.length = numCols cells := by
  have hmem : row ∈ cells := by
    rcases List.getElem?_eq_some_iff.1 h with ⟨hlt, rfl⟩
    exact List.getElem_mem hlt
  have := (List.all_eq_true.1 hrect) row hmem
  simpa using this

theorem isSome_getElem_iff {α : Type} (l : List α) (i : Nat) :
    (l[i]?).isSome = true ↔ i < l.length := by
  constructor
  · intro h
    rcases Option.isSome_iff_exists.1 h with ⟨a, ha⟩
    exact (List.getElem?_eq_some_iff.1 ha).1
  · intro h
    rw [List.getElem?_eq_getElem h]
    rfl

theorem validB_iff_isSome {cells : Board} (hrect : rectB cells = true) (r c : Int) :
    validB cells (r, c) = true ↔ (getCell? cells r c).isSome := by
  constructor
  · intro hv
    simp only [validB, isValidPosition, Bool.and_eq_true, decide_eq_true_eq] at hv
    obtain ⟨⟨⟨h1, h2⟩, h3⟩, h4⟩ := hv
    rw [getCell?, if_neg (by omega)]
    have hlt : r.toNat < cells.length := by omega
    cases hrow : cells[r.toNat]? with
    | none =>
      rw [List.getElem?_eq_none_iff] at hrow
      omega
    | some row =>
      have hlen := rectB_row_length hrect hrow
      have hclt : c.toNat < row.length := by omega
      show (row[c.toNat]?).isSome = true
      exact (isSome_getElem_iff row c.toNat).2 hclt
  · intro hs
    by_cases hneg : r < 0 ∨ c < 0
    · rw [getCell?_none_of_neg cells hneg] at hs
      exact absurd hs (by decide)
    · push_neg at hneg
      rw [getCell?, if_neg (by push_neg; exact hneg)] at hs
      cases hrow : cells[r.toNat]? with
      | none =>
        rw [hrow] at hs
        rcases Option.isSome_iff_exists.1 hs with ⟨a, ha⟩
        exact Option.noConfusion ha
      | some row =>
        rw [hrow] at hs
        have hclt : c.toNat < row.length := (isSome_getElem_iff row c.toNat).1 hs
        have hrlt : r.toNat < cells.length := by
          by_contra hge
          rw [List.getElem?_eq_none_iff.2 (by omega)] at hrow
          exact Option.noConfusion hrow
        have hlen := rectB_row_length hrect hrow
        simp only [validB, isValidPosition, Bool.and_eq_true, decide_eq_true_eq]
        omega

/-! ## The frame relation of the reveal operation -/

/-- Relates two cells when the second differs from the first at most by
having `isRevealed` switched from `false` to `true`. -/
def cellFrame (c₀ c₁ : Cell) : Prop :=
  c₁.id = c₀.id ∧ c₁.row = c₀.row ∧ c₁.col = c₀.col ∧ c₁.isMine = c₀.isMine ∧
    c₁.isFlagged = c₀.isFlagged ∧ c₁.isQuestioned = c₀.isQuestioned ∧
    c₁.neighborMines = c₀.neighborMines ∧ c₁.isExploded = c₀.isExploded ∧
    (c₀.isRevealed = true → c₁.isRevealed = true)

theorem cellFrame_refl (c : Cell) : cellFrame c c :=
  ⟨rfl, rfl, rfl, rfl, rfl, rfl, rfl, rfl, fun h => h⟩

theorem cellFrame_trans {a b c : Cell} (h₁ : cellFrame a b) (h₂ : cellFrame b c) :
    cellFrame a c := by
  obtain ⟨e1, e2, e3, e4, e5, e6, e7, e8, m⟩ := h₁
  obtain ⟨f1, f2, f3, f4, f5, f6, f7, f8, n⟩ := h₂
  exact ⟨f1.trans e1, f2.trans e2, f3.trans e3, f4.trans e4, f5.trans e5,
    f6.trans e6, f7.trans e7, f8.trans e8, fun h => n (m h)⟩

theorem cellFrame_reveal (c : Cell) : cellFrame c { c with isRevealed := true } :=
  ⟨rfl, rfl, rfl, rfl, rfl, rfl, rfl, rfl, fun _ => rfl⟩

/-- Relates two boards of the same shape whose cells are pairwise related by
`cellFrame`: the second board reveals at least as much as the first and is
otherwise identical. -/
def boardFrame (b₀ b₁ : Board) : Prop :=
  List.Forall₂ (List.Forall₂ cellFrame) b₀ b₁

theorem boardFrame_refl (b : Board) : boardFrame b b :=
  List.forall₂_same.2 fun r _ => List.forall₂_same.2 fun c _ => cellFrame_refl c

theorem forall₂_trans_of {α : Type} {R : α → α → Prop}
    (hR : ∀ {a b c : α}, R a b → R b c → R a c) :
    ∀ {l₁ l₂ l₃ : List α}, List.Forall₂ R l₁ l₂ → List.Forall₂ R l₂ l₃ →
      List.Forall₂ R l₁ l₃ := by
  intro l₁ l₂ l₃ h₁ h₂
  induction h₁ generalizing l₃ with
  | nil =>
    cases h₂
    exact List.Forall₂.nil
  | cons hab htl ih =>
    cases h₂ with
    | cons hbc htl₂ => exact List.Forall₂.cons (hR hab hbc) (ih htl₂)

theorem boardFrame_trans {a b c : Board} (h₁ : boardFrame a b) (h₂ : boardFrame b c) :
    boardFrame a c := by
  refine forall₂_trans_of ?_ h₁ h₂
  intro x y z hx hy
  refine forall₂_trans_of ?_ hx hy
  intro u v w hu hv
  exact cellFrame_trans hu hv

theorem forall₂_getElem? {α β : Type} {R : α → β → Prop} {l₁ : List α} {l₂ : List β}
    (h : List.Forall₂ R l₁ l₂) (i : Nat) :
    (l₁[i]? = none ∧ l₂[i]? = none) ∨
      ∃ a b, l₁[i]? = some a ∧ l₂[i]? = some b ∧ R a b := by
  induction h generalizing i with
  | nil =>
    left
    exact ⟨by simp, by simp⟩
  | cons hab htl ih =>
    cases i with
    | zero =>
      right
      exact ⟨_, _, by simp, by simp, hab⟩
    | succ n => simpa using ih n

theorem forall₂_modifyAt {α : Type} {R : α → α → Prop} (hrefl : ∀ a, R a a) {f : α → α}
    (hf : ∀ a, R a (f a)) : ∀ (l : List α) (i : Nat), List.Forall₂ R l (modifyAt l i f) := by
  intro l
  induction l with
  | nil => intro i; exact List.Forall₂.nil
  | cons a as ih =>
    intro i
    cases i with
    | zero => exact List.Forall₂.cons (hf a) (List.forall₂_same.2 fun x _ => hrefl x)
    | succ n => exact List.Forall₂.cons (hrefl a) (ih n)

theorem boardFrame_setCell {cells : Board} {f : Cell → Cell}
    (hf : ∀ c, cellFrame c (f c)) (row col : Int) :
    boardFrame cells (setCell cells row col f) := by
  rw [setCell]
  split
  · exact boardFrame_refl cells
  · exact forall₂_modifyAt (fun r => List.forall₂_same.2 fun x _ => cellFrame_refl x)
      (fun r => forall₂_modifyAt cellFrame_refl hf r col.toNat) cells row.toNat

theorem boardFrame_getCell? {b₀ b₁ : Board} (h : boardFrame b₀ b₁) (r c : Int) :
    (getCell? b₀ r c = none ∧ getCell? b₁ r c = none) ∨
      ∃ x y, getCell? b₀ r c = some x ∧ getCell? b₁ r c = some y ∧ cellFrame x y := by
  by_cases hneg : r < 0 ∨ c < 0
  · left
    exact ⟨getCell?_none_of_neg _ hneg, getCell?_none_of_neg _ hneg⟩
  · rcases forall₂_getElem? h r.toNat with ⟨h0, h1⟩ | ⟨r0, r1, h0, h1, hR⟩
    · left
      constructor <;> rw [getCell?, if_neg hneg]
      · rw [h0]
        rfl
      · rw [h1]
        rfl
    · rcases forall₂_getElem? hR c.toNat with ⟨g0, g1⟩ | ⟨x, y, g0, g1, hxy⟩
      · left
        constructor <;> rw [getCell?, if_neg hneg]
        · rw [h0]
          exact g0
        · rw [h1]
          exact g1
      · right
        refine ⟨x, y, ?_, ?_, hxy⟩ <;> rw [getCell?, if_neg hneg]
        · rw [h0]
          exact g0
        · rw [h1]
          exact g1

theorem boardFrame_getCellD {b₀ b₁ : Board} (h : boardFrame b₀ b₁) (r c : Int) :
    cellFrame (getCellD b₀ r c) (getCellD b₁ r c) := by
  rcases boardFrame_getCell? h r c with ⟨h0, h1⟩ | ⟨x, y, h0, h1, hxy⟩
  · rw [getCellD, getCellD, h0, h1]
    exact cellFrame_refl _
  · rw [getCellD, getCellD, h0, h1]
    exact hxy

theorem boardFrame_getFlg {b₀ b₁ : Board} (h : boardFrame b₀ b₁) (p : Position) :
    getFlg b₁ p = getFlg b₀ p := by
  obtain ⟨-, -, -, -, h5, -⟩ := boardFrame_getCellD h p.1 p.2
  exact h5

theorem boardFrame_getRev_mono {b₀ b₁ : Board} (h : boardFrame b₀ b₁) (p : Position)
    (hrev : getRev b₀ p = true) : getRev b₁ p = true := by
  obtain ⟨-, -, -, -, -, -, -, -, hm⟩ := boardFrame_getCellD h p.1 p.2
  exact hm hrev

theorem boardFrame_zeroCellB {b₀ b₁ : Board} (h : boardFrame b₀ b₁) (p : Position) :
    zeroCellB b₁ p = zeroCellB b₀ p := by
  rcases boardFrame_getCell? h p.1 p.2 with ⟨h0, h1⟩ | ⟨x, y, h0, h1, hxy⟩
  · simp only [zeroCellB, h0, h1]
  · obtain ⟨-, -, -, h4, -, -, h7, -, -⟩ := hxy
    simp only [zeroCellB, h0, h1, h4, h7]

theorem boardFrame_length {b₀ b₁ : Board} (h : boardFrame b₀ b₁) :
    b₁.length = b₀.length :=
  (List.Forall₂.length_eq h).symm

theorem boardFrame_numCols {b₀ b₁ : Board} (h : boardFrame b₀ b₁) :
    numCols b₁ = numCols b₀ := by
  rw [numCols_eq_getElem, numCols_eq_getElem]
  rcases forall₂_getElem? h 0 with ⟨h0, h1⟩ | ⟨x, y, h0, h1, hxy⟩
  · rw [h0, h1]
  · rw [h0, h1]
    simpa using (List.Forall₂.length_eq hxy).symm

theorem boardFrame_validB {b₀ b₁ : Board} (h : boardFrame b₀ b₁) (p : Position) :
    validB b₁ p = validB b₀ p := by
  rw [validB, validB, boardFrame_length h, boardFrame_numCols h]

theorem boardFrame_rectB {b₀ b₁ : Board} (h : boardFrame b₀ b₁)
    (hrect : rectB b₀ = true) : rectB b₁ = true := by
  rw [rectB, List.all_eq_true]
  intro r hr
  rcases List.getElem_of_mem hr with ⟨i, hi, hgi⟩
  have hg1 : b₁[i]? = some r := by
    rw [List.getElem?_eq_getElem hi, hgi]
  rcases forall₂_getElem? h i with ⟨h0, h1⟩ | ⟨x, y, h0, h1, hxy⟩
  · rw [hg1] at h1
    exact Option.noConfusion h1
  · rw [hg1] at h1
    obtain rfl : r = y := Option.some.inj h1
    have hx := rectB_row_length hrect h0
    have hlen : r.length = x.length := (List.Forall₂.length_eq hxy).symm
    rw [beq_iff_eq, hlen, hx, boardFrame_numCols h]

/-! ## Counting unrevealed cells -/

theorem countUnrevealed_cons (r : List Cell) (rs : Board) :
    countUnrevealed (r :: rs) =
      (r.filter fun c => !c.isRevealed).length + countUnrevealed rs := by
  simp [countUnrevealed, List.filter_append]

theorem filter_unrev_keep {y : Cell} (l : List Cell) (hy : y.isRevealed = false) :
    List.filter (fun c => !c.isRevealed) (y :: l) =
      y :: List.filter (fun c => !c.isRevealed) l := by
  simp [List.filter_cons, hy]

theorem filter_unrev_drop {y : Cell} (l : List Cell) (hy : y.isRevealed = true) :
    List.filter (fun c => !c.isRevealed) (y :: l) =
      List.filter (fun c => !c.isRevealed) l := by
  simp [List.filter_cons, hy]

theorem rowUnrev_le {r₀ r₁ : List Cell} (h : List.Forall₂ cellFrame r₀ r₁) :
    (r₁.filter fun c => !c.isRevealed).length ≤
      (r₀.filter fun c => !c.isRevealed).length := by
  induction h with
  | nil => exact Nat.le_refl 0
  | @cons a b l₁ l₂ hab htl ih =>
    obtain ⟨-, -, -, -, -, -, -, -, hm⟩ := hab
    cases ha : a.isRevealed with
    | true =>
      rw [filter_unrev_drop l₁ ha, filter_unrev_drop l₂ (hm ha)]
      exact ih
    | false =>
      rw [filter_unrev_keep l₁ ha]
      cases hb : b.isRevealed with
      | true =>
        rw [filter_unrev_drop l₂ hb, List.length_cons]
        omega
      | false =>
        rw [filter_unrev_keep l₂ hb, List.length_cons, List.length_cons]
        omega

theorem countUnrevealed_le {b₀ b₁ : Board} (h : boardFrame b₀ b₁) :
    countUnrevealed b₁ ≤ countUnrevealed b₀ :=
  rowUnrev_le (List.rel_flatten h)

theorem filterUnrev_modifyAt_reveal {r : List Cell} {j : Nat} {x : Cell}
    (hx : r[j]? = some x) (hrev : x.isRevealed = false) :
    ((modifyAt r j fun c => { c with isRevealed := true }).filter
        fun c => !c.isRevealed).length + 1
      = (r.filter fun c => !c.isRevealed).length := by
  induction r generalizing j with
  | nil => simp at hx
  | cons a as ih =>
    cases j with
    | zero =>
      obtain rfl : a = x := by simpa using hx
      show ((List.filter _ ({ a with isRevealed := true } :: as)).length) + 1 = _
      rw [filter_unrev_drop as (show Cell.isRevealed { a with isRevealed := true } = true from rfl),
        filter_unrev_keep as hrev, List.length_cons]
    | succ n =>
      have hx' : as[n]? = some x := by simpa using hx
      have hrec := ih hx'
      show ((List.filter _ (a :: modifyAt as n _)).length) + 1 = _
      cases ha : a.isRevealed with
      | true =>
        rw [filter_unrev_drop _ ha, filter_unrev_drop as ha]
        exact hrec
      | false =>
        rw [filter_unrev_keep _ ha, filter_unrev_keep as ha, List.length_cons,
          List.length_cons]
        omega

theorem countUnrevealed_modifyAt_row (cells : Board) (i : Nat) (row : List Cell)
    (hrow : cells[i]? = some row) (F : List Cell → List Cell)
    (hF : ((F row).filter fun c => !c.isRevealed).length + 1 =
      (row.filter fun c => !c.isRevealed).length) :
    countUnrevealed (modifyAt cells i F) + 1 = countUnrevealed cells := by
  induction cells generalizing i with
  | nil => simp at hrow
  | cons a as ih =>
    cases i with
    | zero =>
      obtain rfl : a = row := by simpa using hrow
      simp only [modifyAt, countUnrevealed_cons]
      omega
    | succ n =>
      have hrow' : as[n]? = some row := by simpa using hrow
      have := ih n hrow'
      simp only [modifyAt, countUnrevealed_cons]
      omega

theorem countUnrevealed_setCell_reveal {cells : Board} {r c : Int} {x : Cell}
    (hx : getCell? cells r c = some x) (hrev : x.isRevealed = false) :
    countUnrevealed (setCell cells r c fun cc => { cc with isRevealed := true }) + 1
      = countUnrevealed cells := by
  have hneg : ¬ (r < 0 ∨ c < 0) := by
    intro h
    rw [getCell?_none_of_neg cells h] at hx
    exact Option.noConfusion hx
  rw [setCell, if_neg hneg]
  rw [getCell?, if_neg hneg] at hx
  cases hrow : cells[r.toNat]? with
  | none =>
    rw [hrow] at hx
    exact Option.noConfusion hx
  | some row =>
    rw [hrow] at hx
    have hx' : row[c.toNat]? = some x := hx
    exact countUnrevealed_modifyAt_row cells r.toNat row hrow _
      (filterUnrev_modifyAt_reveal hx' hrev)

theorem getCell?_mem {cells : Board} {r c : Int} {x : Cell}
    (hx : getCell? cells r c = some x) : x ∈ cells.flatten := by
  by_cases hneg : r < 0 ∨ c < 0
  · rw [getCell?_none_of_neg cells hneg] at hx
    exact Option.noConfusion hx
  · rw [getCell?, if_neg hneg] at hx
    cases hrow : cells[r.toNat]? with
    | none =>
      rw [hrow] at hx
      exact Option.noConfusion hx
    | some row =>
      rw [hrow] at hx
      have hx' : row[c.toNat]? = some x := hx
      have hrmem : row ∈ cells := by
        rcases List.getElem?_eq_some_iff.1 hrow with ⟨hlt, rfl⟩
        exact List.getElem_mem hlt
      have hxmem : x ∈ row := by
        rcases List.getElem?_eq_some_iff.1 hx' with ⟨hlt, rfl⟩
        exact List.getElem_mem hlt
      exact List.mem_flatten.2 ⟨row, hrmem, hxmem⟩

theorem revealed_of_countUnrevealed_zero {cells : Board}
    (h : countUnrevealed cells = 0) {r c : Int} {x : Cell}
    (hx : getCell? cells r c = some x) : x.isRevealed = true := by
  have hmem := getCell?_mem hx
  rw [countUnrevealed, List.length_eq_zero] at h
  have := List.filter_eq_nil_iff.1 h x hmem
  simpa using this

/-! ## Unfolding equations for the reveal recursion -/

theorem revealCellAux_succ (fuel : Nat) (cells : Board) (row col : Int) :
    revealCellAux (fuel + 1) cells row col =
      if ¬ isValidPosition row col cells.length (numCols cells) then cells
      else if (getCellD cells row col).isRevealed ∨ (getCellD cells row col).isFlagged then
        cells
      else if (getCellD cells row col).neighborMines = 0 ∧
          (getCellD cells row col).isMine = false then
        revealFold fuel (getNeighborPositions row col cells.length (numCols cells))
          (setCell cells row col fun c => { c with isRevealed := true })
      else setCell cells row col fun c => { c with isRevealed := true } := rfl

theorem revealFold_nil (fuel : Nat) (acc : Board) : revealFold fuel [] acc = acc := rfl

theorem revealFold_cons (fuel : Nat) (p : Position) (ns : List Position) (acc : Board) :
    revealFold fuel (p :: ns) acc =
      revealFold fuel ns
        (if (getCellD acc p.1 p.2).isRevealed = false ∧
            (getCellD acc p.1 p.2).isFlagged = false then
          revealCellAux fuel acc p.1 p.2
        else acc) := rfl

theorem boardFrame_revealFold {fuel : Nat}
    (IH : ∀ (b : Board) (r c : Int), boardFrame b (revealCellAux fuel b r c)) :
    ∀ (ns : List Position) (acc : Board), boardFrame acc (revealFold fuel ns acc) := by
  intro ns
  induction ns with
  | nil =>
    intro acc
    exact boardFrame_refl acc
  | cons p ns ih =>
    intro acc
    rw [revealFold_cons]
    refine boardFrame_trans ?_ (ih _)
    split
    · exact IH acc p.1 p.2
    · exact boardFrame_refl acc

theorem boardFrame_revealCellAux :
    ∀ (fuel : Nat) (cells : Board) (row col : Int),
      boardFrame cells (revealCellAux fuel cells row col) := by
  intro fuel
  induction fuel with
  | zero =>
    intro cells row col
    exact boardFrame_refl cells
  | succ fuel ih =>
    intro cells row col
    rw [revealCellAux_succ]
    split
    · exact boardFrame_refl cells
    · split
      · exact boardFrame_refl cells
      · split
        · exact boardFrame_trans (boardFrame_setCell cellFrame_reveal row col)
            (boardFrame_revealFold ih _ _)
        · exact boardFrame_setCell cellFrame_reveal row col

theorem boardFrame_revealCell (cells : Board) (row col : Int) :
    boardFrame cells (revealCell cells row col) :=
  boardFrame_revealCellAux _ cells row col

/-! ## Helper lemmas for the per-claim theorems -/

theorem boardFrame_rowLen {b₀ b₁ : Board} (h : boardFrame b₀ b₁) (i : Nat) :
    ((b₁[i]?).getD []).length = ((b₀[i]?).getD []).length := by
  rcases forall₂_getElem? h i with ⟨h0, h1⟩ | ⟨x, y, h0, h1, hxy⟩
  · rw [h0, h1]
  · rw [h0, h1]
    simpa using (List.Forall₂.length_eq hxy).symm

theorem validB_false_not_isValid {cells : Board} {row col : Int}
    (hv : validB cells (row, col) = false) :
    ¬ isValidPosition row col cells.length (numCols cells) = true := by
  intro h
  rw [show isValidPosition row col cells.length (numCols cells) =
    validB cells (row, col) from rfl, hv] at h
  exact Bool.noConfusion h

theorem filter_length_modifyAt_of_pred (p : Cell → Bool) (f : Cell → Cell)
    (hf : ∀ y, p (f y) = p y) (l : List Cell) (j : Nat) :
    ((modifyAt l j f).filter p).length = (l.filter p).length := by
  induction l generalizing j with
  | nil => rfl
  | cons a as ih =>
    cases j with
    | zero =>
      rw [show modifyAt (a :: as) 0 f = f a :: as from rfl, List.filter_cons,
        List.filter_cons, hf a]
      split <;> simp
    | succ n =>
      rw [show modifyAt (a :: as) (n + 1) f = a :: modifyAt as n f from rfl,
        List.filter_cons, List.filter_cons]
      split <;> simp [ih n]

theorem filter_flatten_cons (p : Cell → Bool) (r : List Cell) (rs : Board) :
    ((r :: rs).flatten.filter p).length =
      (r.filter p).length + (rs.flatten.filter p).length := by
  simp [List.filter_append]

theorem filter_flatten_setCell (p : Cell → Bool) (f : Cell → Cell)
    (hf : ∀ y, p (f y) = p y) (cells : Board) (r c : Int) :
    ((setCell cells r c f).flatten.filter p).length =
      (cells.flatten.filter p).length := by
  rw [setCell]
  split
  · rfl
  · generalize r.toNat = i
    induction cells generalizing i with
    | nil => rfl
    | cons a as ih =>
      cases i with
      | zero =>
        rw [show modifyAt (a :: as) 0 (fun row => modifyAt row c.toNat f) =
          modifyAt a c.toNat f :: as from rfl, filter_flatten_cons, filter_flatten_cons,
          filter_length_modifyAt_of_pred p f hf]
      | succ n =>
        rw [show modifyAt (a :: as) (n + 1) (fun row => modifyAt row c.toNat f) =
          a :: modifyAt as n (fun row => modifyAt row c.toNat f) from rfl,
          filter_flatten_cons, filter_flatten_cons, ih n]

/-! ## Claim theorems: frame, no-op, out-of-bounds and win condition -/

/-- C10: for every board and position, `revealCell` changes at most the
`isRevealed` field of cells, and only from `false` to `true`; the board
shape and every other field of every cell are identical before and after. -/
theorem revealCell_frame (cells : Board) (row col : Int) :
    (revealCell cells row col).length = cells.length ∧
    (∀ i : Nat, (((revealCell cells row col)[i]?).getD []).length =
      ((cells[i]?).getD []).length) ∧
    ∀ r c : Int,
      (getCellD (revealCell cells row col) r c).id = (getCellD cells r c).id ∧
      (getCellD (revealCell cells row col) r c).row = (getCellD cells r c).row ∧
      (getCellD (revealCell cells row col) r c).col = (getCellD cells r c).col ∧
      (getCellD (revealCell cells row col) r c).isMine = (getCellD cells r c).isMine ∧
      (getCellD (revealCell cells row col) r c).isFlagged =
        (getCellD cells r c).isFlagged ∧
      (getCellD (revealCell cells row col) r c).isQuestioned =
        (getCellD cells r c).isQuestioned ∧
      (getCellD (revealCell cells row col) r c).neighborMines =
        (getCellD cells r c).neighborMines ∧
      (getCellD (revealCell cells row col) r c).isExploded =
        (getCellD cells r c).isExploded ∧
      ((getCellD cells r c).isRevealed = true →
        (getCellD (revealCell cells row col) r c).isRevealed = true) := by
  have h := boardFrame_revealCell cells row col
  exact ⟨boardFrame_length h, boardFrame_rowLen h, fun r c => boardFrame_getCellD h r c⟩

/-- C7: revealing an already-revealed or flagged cell, or an out-of-bounds
position, is a no-op: `revealCell` returns a board structurally equal to its
input (the source returns the very same array). -/
theorem revealCell_noop (cells : Board) (row col : Int) (hne : 0 < cells.length) :
    (validB cells (row, col) = false → revealCell cells row col = cells) ∧
    ((getCellD cells row col).isRevealed = true ∨ (getCellD cells row col).isFlagged = true →
      revealCell cells row col = cells) := by
  constructor
  · intro hv
    rw [revealCell, revealCellAux_succ, if_pos (validB_false_not_isValid hv)]
  · intro hrf
    rw [revealCell, revealCellAux_succ]
    by_cases hval : isValidPosition row col cells.length (numCols cells) = true
    · rw [if_neg (by simp [hval]), if_pos hrf]
    · rw [if_pos hval]

/-- Applies C7 on a concrete 1-by-1 board holding one flagged cell. -/
theorem revealCell_noop_witness :
    revealCell [[{ createEmptyCell 0 0 with isFlagged := true }]] 0 0 =
      [[{ createEmptyCell 0 0 with isFlagged := true }]] :=
  (revealCell_noop [[{ createEmptyCell 0 0 with isFlagged := true }]] 0 0
    (by decide)).2 (Or.inr (by decide))

/-- C4: an out-of-bounds position never corrupts the board: `revealCell`
returns its input unchanged, while `toggleFlag` and `toggleQuestion` signal
the failure (the source's unchecked read throws before any cell changes,
embedded as `none`). -/
theorem out_of_bounds_ops_safe (cells : Board) (row col : Int)
    (hrect : rectB cells = true) (hv : validB cells (row, col) = false) :
    revealCell cells row col = cells ∧ toggleFlag cells row col = none ∧
      toggleQuestion cells row col = none := by
  have hnone : getCell? cells row col = none := by
    cases h : getCell? cells row col with
    | none => rfl
    | some x =>
      have hsome : validB cells (row, col) = true :=
        (validB_iff_isSome hrect row col).2 (by rw [h]; rfl)
      rw [hv] at hsome
      exact Bool.noConfusion hsome
  refine ⟨?_, ?_, ?_⟩
  · rw [revealCell, revealCellAux_succ, if_pos (validB_false_not_isValid hv)]
  · rw [toggleFlag, hnone]
  · rw [toggleQuestion, hnone]

/-- Applies C4 on a concrete 1-by-1 board and the out-of-bounds position
`(5, 5)`. -/
theorem out_of_bounds_ops_safe_witness :
    revealCell [[createEmptyCell 0 0]] 5 5 = [[createEmptyCell 0 0]] ∧
      toggleFlag [[createEmptyCell 0 0]] 5 5 = none ∧
      toggleQuestion [[createEmptyCell 0 0]] 5 5 = none :=
  out_of_bounds_ops_safe [[createEmptyCell 0 0]] 5 5 (by decide) (by decide)

/-- C6: `checkWinCondition` is true exactly when the number of revealed
cells equals `rows * cols - totalMines` (as integers, matching the
JavaScript subtraction), and its value is unaffected by toggling flags or
question marks anywhere. -/
theorem checkWinCondition_iff (cells : Board) (totalMines : Nat) :
    (checkWinCondition cells totalMines = true ↔
      (getRevealedCount cells : Int) =
        (cells.length : Int) * (numCols cells : Int) - (totalMines : Int)) ∧
    (∀ row col : Int,
      checkWinCondition ((toggleFlag cells row col).getD cells) totalMines =
        checkWinCondition cells totalMines ∧
      checkWinCondition ((toggleQuestion cells row col).getD cells) totalMines =
        checkWinCondition cells totalMines) := by
  constructor
  · simp [checkWinCondition]
  · intro row col
    constructor
    · rw [toggleFlag]
      cases hx : getCell? cells row col with
      | none => rfl
      | some x =>
        simp only [Option.getD_some]
        split
        · rw [checkWinCondition, checkWinCondition, getRevealedCount, getRevealedCount,
            filter_flatten_setCell (fun c => c.isRevealed) toggleFlagCell
              (fun y => rfl) cells row col,
            length_setCell, numCols_setCell]
        · rfl
    · rw [toggleQuestion]
      cases hx : getCell? cells row col with
      | none => rfl
      | some x =>
        simp only [Option.getD_some]
        split
        · rw [checkWinCondition, checkWinCondition, getRevealedCount, getRevealedCount,
            filter_flatten_setCell (fun c => c.isRevealed) toggleQuestionCell
              (fun y => rfl) cells row col,
            length_setCell, numCols_setCell]
        · rfl

/-! ## Inversion and update-composition helpers -/

theorem getCell?_inv {cells : Board} {r c : Int} {x : Cell}
    (hx : getCell? cells r c = some x) :
    0 ≤ r ∧ 0 ≤ c ∧ ∃ row, cells[r.toNat]? = some row ∧ row[c.toNat]? = some x := by
  by_cases hneg : r < 0 ∨ c < 0
  · rw [getCell?_none_of_neg cells hneg] at hx
    exact Option.noConfusion hx
  · push_neg at hneg
    rw [getCell?, if_neg (by push_neg; exact hneg)] at hx
    cases hrow : cells[r.toNat]? with
    | none =>
      rw [hrow] at hx
      exact Option.noConfusion hx
    | some row =>
      rw [hrow] at hx
      exact ⟨hneg.1, hneg.2, row, rfl, hx⟩

theorem getCell?_singleton_inv {y x : Cell} {r c : Int}
    (h : getCell? [[y]] r c = some x) : r = 0 ∧ c = 0 ∧ x = y := by
  obtain ⟨hr0, hc0, row, hrow, hcell⟩ := getCell?_inv h
  have hrlt : r.toNat < 1 := by
    simpa using (List.getElem?_eq_some_iff.1 hrow).1
  have hr : r = 0 := by omega
  subst hr
  obtain rfl : row = [y] := by
    have h0 : (0 : Int).toNat = 0 := rfl
    rw [h0] at hrow
    simpa using hrow.symm
  have hclt : c.toNat < 1 := by
    simpa using (List.getElem?_eq_some_iff.1 hcell).1
  have hc : c = 0 := by omega
  subst hc
  have h0 : (0 : Int).toNat = 0 := rfl
  rw [h0] at hcell
  exact ⟨rfl, rfl, by simpa using hcell.symm⟩

theorem modifyAt_modifyAt {α : Type} (l : List α) (i : Nat) (f g : α → α) :
    modifyAt (modifyAt l i f) i g = modifyAt l i fun x => g (f x) := by
  induction l generalizing i with
  | nil => rfl
  | cons a as ih =>
    cases i with
    | zero => rfl
    | succ n =>
      show a :: modifyAt (modifyAt as n f) n g = a :: modifyAt as n _
      rw [ih n]

theorem setCell_setCell (cells : Board) (r c : Int) (f g : Cell → Cell) :
    setCell (setCell cells r c f) r c g = setCell cells r c fun x => g (f x) := by
  rw [setCell, setCell, setCell]
  split
  · rfl
  · rw [modifyAt_modifyAt]
    congr 1
    funext rowl
    rw [modifyAt_modifyAt]

theorem modifyAt_eq_self {α : Type} {l : List α} {i : Nat} {f : α → α}
    (h : ∀ a, l[i]? = some a → f a = a) : modifyAt l i f = l := by
  induction l generalizing i with
  | nil => rfl
  | cons a as ih =>
    cases i with
    | zero =>
      show f a :: as = a :: as
      rw [h a (by simp)]
    | succ n =>
      show a :: modifyAt as n f = a :: as
      rw [ih fun b hb => h b (by simpa using hb)]

theorem setCell_eq_self {cells : Board} {r c : Int} {f : Cell → Cell}
    (h : ∀ x, getCell? cells r c = some x → f x = x) : setCell cells r c f = cells := by
  rw [setCell]
  split
  · rfl
  · rename_i hneg
    push_neg at hneg
    refine modifyAt_eq_self fun rowl hrow => modifyAt_eq_self fun a ha => h a ?_
    rw [getCell?, if_neg (by push_neg; exact hneg), hrow]
    exact ha

theorem getCell?_map_map (g : Cell → Cell) (cells : Board) (r c : Int) :
    getCell? (cells.map fun row => row.map g) r c = (getCell? cells r c).map g := by
  rw [getCell?, getCell?]
  split
  · rfl
  · rw [List.getElem?_map]
    cases cells[r.toNat]? with
    | none => rfl
    | some row =>
      show (row.map g)[c.toNat]? = (row[c.toNat]?).map g
      rw [List.getElem?_map]

/-! ## Claim theorems: revealAllMines and the toggle operations -/

/-- C5: `revealAllMines` reveals every mine, marks exactly the mine at the
supplied position as exploded (every other cell gets `isExploded = false`),
and leaves the reveal state of every non-mine cell unchanged.  The source
compares each cell's own `row`/`col` fields against the supplied position,
so the board is assumed position-coherent, as every engine-built board is. -/
theorem revealAllMines_spec (cells : Board) (er ec : Int)
    (hcoh : ∀ (r c : Int) (x : Cell), getCell? cells r c = some x → x.row = r ∧ x.col = c)
    (hmine : ∃ m, getCell? cells er ec = some m ∧ m.isMine = true) :
    (∀ (r c : Int) (x : Cell), getCell? cells r c = some x →
      ∃ y, getCell? (revealAllMines cells er ec) r c = some y ∧
        (x.isMine = true → y.isRevealed = true) ∧
        (x.isMine = false → y.isRevealed = x.isRevealed) ∧
        (y.isExploded = true ↔ x.isMine = true ∧ r = er ∧ c = ec)) ∧
    ∃ y, getCell? (revealAllMines cells er ec) er ec = some y ∧ y.isExploded = true := by
  constructor
  · intro r c x hx
    refine ⟨revealMineCell er ec x, ?_, ?_, ?_, ?_⟩
    · rw [revealAllMines, getCell?_map_map, hx]
      rfl
    · intro hm
      show (if x.isMine then true else x.isRevealed) = true
      rw [hm]
      rfl
    · intro hm
      show (if x.isMine then true else x.isRevealed) = x.isRevealed
      rw [hm]
      rfl
    · obtain ⟨hrow, hcol⟩ := hcoh r c x hx
      show (x.isMine && x.row == er && x.col == ec) = true ↔ _
      rw [hrow, hcol]
      simp [Bool.and_assoc]
  · obtain ⟨m, hm, hmine⟩ := hmine
    refine ⟨revealMineCell er ec m, ?_, ?_⟩
    · rw [revealAllMines, getCell?_map_map, hm]
      rfl
    · obtain ⟨hrow, hcol⟩ := hcoh er ec m hm
      show (m.isMine && m.row == er && m.col == ec) = true
      rw [hrow, hcol, hmine]
      simp

/-- Applies C5 on a concrete 1-by-1 board whose single cell is a mine,
exploded at `(0, 0)`. -/
theorem revealAllMines_spec_witness :
    ∃ y, getCell? (revealAllMines [[{ createEmptyCell 0 0 with isMine := true }]] 0 0)
        0 0 = some y ∧ y.isExploded = true :=
  (revealAllMines_spec [[{ createEmptyCell 0 0 with isMine := true }]] 0 0
    (fun r c x hx => by
      obtain ⟨rfl, rfl, rfl⟩ := getCell?_singleton_inv hx
      exact ⟨rfl, rfl⟩)
    ⟨{ createEmptyCell 0 0 with isMine := true }, by decide, rfl⟩).2

/-- C8: on an unrevealed, unflagged, unquestioned cell both `toggleFlag` and
`toggleQuestion` are involutions returning a board structurally equal to the
original, and `toggleFlag` on an unrevealed questioned (unflagged) cell sets
the flag and clears the question mark. -/
theorem toggle_involutions (cells : Board) (row col : Int) (x : Cell)
    (hx : getCell? cells row col = some x) (hrev : x.isRevealed = false) :
    (x.isFlagged = false → x.isQuestioned = false →
      (toggleFlag cells row col).bind (fun b => toggleFlag b row col) = some cells ∧
      (toggleQuestion cells row col).bind (fun b => toggleQuestion b row col) =
        some cells) ∧
    (x.isQuestioned = true → x.isFlagged = false →
      ∃ b y, toggleFlag cells row col = some b ∧ getCell? b row col = some y ∧
        y.isFlagged = true ∧ y.isQuestioned = false) := by
  have hx' : getCell? (setCell cells row col toggleFlagCell) row col =
      some (toggleFlagCell x) := by
    rw [getCell?_setCell, if_pos ⟨rfl, rfl⟩, hx]
    rfl
  have hxq : getCell? (setCell cells row col toggleQuestionCell) row col =
      some (toggleQuestionCell x) := by
    rw [getCell?_setCell, if_pos ⟨rfl, rfl⟩, hx]
    rfl
  have h1 : toggleFlag cells row col = some (setCell cells row col toggleFlagCell) := by
    simp only [toggleFlag, hx]
    rw [if_pos hrev]
  constructor
  · intro hf hq
    constructor
    · rw [h1]
      show toggleFlag (setCell cells row col toggleFlagCell) row col = some cells
      simp only [toggleFlag, hx']
      rw [if_pos (show (toggleFlagCell x).isRevealed = false from hrev),
        setCell_setCell]
      refine congrArg some (setCell_eq_self fun y hy => ?_)
      obtain rfl : x = y := Option.some.inj (hx.symm.trans hy)
      cases x with
      | mk id xr xc mi rv fl qu nm ex =>
        simp only [Cell.mk.injEq] at hf hq ⊢
        simp [toggleFlagCell, hf, hq]
    · have h2 : toggleQuestion cells row col =
          some (setCell cells row col toggleQuestionCell) := by
        simp only [toggleQuestion, hx]
        rw [if_pos ⟨hrev, hf⟩]
      rw [h2]
      show toggleQuestion (setCell cells row col toggleQuestionCell) row col = some cells
      simp only [toggleQuestion, hxq]
      rw [if_pos (show (toggleQuestionCell x).isRevealed = false ∧
          (toggleQuestionCell x).isFlagged = false from ⟨hrev, hf⟩),
        setCell_setCell]
      refine congrArg some (setCell_eq_self fun y hy => ?_)
      obtain rfl : x = y := Option.some.inj (hx.symm.trans hy)
      cases x with
      | mk id xr xc mi rv fl qu nm ex =>
        simp [toggleQuestionCell]
  · intro hq hf
    refine ⟨setCell cells row col toggleFlagCell, toggleFlagCell x, h1, hx', ?_, ?_⟩
    · show (!x.isFlagged) = true
      rw [hf]
      rfl
    · show (if !x.isFlagged then false else x.isQuestioned) = false
      rw [hf]
      rfl

/-- Applies C8 on a concrete 1-by-1 board holding one untouched cell: the
double flag toggle returns the original board. -/
theorem toggle_involutions_witness :
    (toggleFlag [[createEmptyCell 0 0]] 0 0).bind (fun b => toggleFlag b 0 0) =
      some [[createEmptyCell 0 0]] :=
  ((toggle_involutions [[createEmptyCell 0 0]] 0 0 (createEmptyCell 0 0)
    (by decide) rfl).1 rfl rfl).1

/-! ## The cell-state invariants and their preservation -/

/-- Embeds the spec's full cell invariant: a cell is never both flagged and
questioned, and a revealed cell is neither flagged nor questioned. -/
def cellInvariant (c : Cell) : Prop :=
  ¬ (c.isFlagged = true ∧ c.isQuestioned = true) ∧
    (c.isRevealed = true → c.isFlagged = false ∧ c.isQuestioned = false)

instance (c : Cell) : Decidable (cellInvariant c) := by
  unfold cellInvariant
  infer_instance

/-- The full cell invariant over every cell of a board. -/
def boardInvariant (cells : Board) : Prop :=
  ∀ x ∈ cells.flatten, cellInvariant x

instance (cells : Board) : Decidable (boardInvariant cells) :=
  List.decidableBAll _ _

/-- The part of the cell invariant every engine operation does preserve:
no cell is simultaneously flagged and questioned. -/
def flagQuestionExclusive (cells : Board) : Prop :=
  ∀ x ∈ cells.flatten, ¬ (x.isFlagged = true ∧ x.isQuestioned = true)

theorem mem_modifyAt {α : Type} {x : α} {l : List α} {i : Nat} {f : α → α}
    (hx : x ∈ modifyAt l i f) : x ∈ l ∨ ∃ y, l[i]? = some y ∧ x = f y := by
  induction l generalizing i with
  | nil => simp [modifyAt] at hx
  | cons a as ih =>
    cases i with
    | zero =>
      rcases List.mem_cons.1 hx with rfl | hmem
      · right
        exact ⟨a, by simp, rfl⟩
      · left
        exact List.mem_cons_of_mem a hmem
    | succ n =>
      rcases List.mem_cons.1 hx with rfl | hmem
      · left
        exact List.mem_cons_self ..
      · rcases ih hmem with h | ⟨y, hy, rfl⟩
        · left
          exact List.mem_cons_of_mem a h
        · right
          exact ⟨y, by simpa using hy, rfl⟩

theorem mem_flatten_setCell {x : Cell} {cells : Board} {r c : Int} {f : Cell → Cell}
    (hx : x ∈ (setCell cells r c f).flatten) :
    x ∈ cells.flatten ∨ ∃ y, getCell? cells r c = some y ∧ x = f y := by
  rw [setCell] at hx
  split at hx
  · left
    exact hx
  · rename_i hneg
    push_neg at hneg
    rcases List.mem_flatten.1 hx with ⟨rowl, hrowl, hxrow⟩
    rcases mem_modifyAt hrowl with hmem | ⟨rowy, hrowy, rfl⟩
    · left
      exact List.mem_flatten.2 ⟨rowl, hmem, hxrow⟩
    · rcases mem_modifyAt hxrow with hmem | ⟨y, hy, rfl⟩
      · left
        refine List.mem_flatten.2 ⟨rowy, ?_, hmem⟩
        rcases List.getElem?_eq_some_iff.1 hrowy with ⟨hlt, rfl⟩
        exact List.getElem_mem hlt
      · right
        refine ⟨y, ?_, rfl⟩
        rw [getCell?, if_neg (by push_neg; exact hneg), hrowy]
        exact hy

theorem forall₂_mem_right {α β : Type} {R : α → β → Prop} {l₁ : List α} {l₂ : List β}
    (h : List.Forall₂ R l₁ l₂) {x : β} (hx : x ∈ l₂) : ∃ y ∈ l₁, R y x := by
  induction h with
  | nil => simp at hx
  | cons hab htl ih =>
    rcases List.mem_cons.1 hx with rfl | hmem
    · exact ⟨_, List.mem_cons_self .., hab⟩
    · rcases ih hmem with ⟨y, hy, hr⟩
      exact ⟨y, List.mem_cons_of_mem _ hy, hr⟩

theorem flagQuestionExclusive_of_boardFrame {b₀ b₁ : Board} (h : boardFrame b₀ b₁)
    (hinv : flagQuestionExclusive b₀) : flagQuestionExclusive b₁ := by
  intro x hx
  rcases forall₂_mem_right (List.rel_flatten h) hx with ⟨y, hy, hr⟩
  obtain ⟨-, -, -, -, h5, h6, -⟩ := hr
  rw [h5, h6]
  exact hinv y hy

theorem flagQuestionExclusive_setCell {cells : Board} {r c : Int} {f : Cell → Cell}
    (h : flagQuestionExclusive cells)
    (hf : ∀ y, getCell? cells r c = some y →
      ¬ ((f y).isFlagged = true ∧ (f y).isQuestioned = true)) :
    flagQuestionExclusive (setCell cells r c f) := by
  intro x hx
  rcases mem_flatten_setCell hx with hmem | ⟨y, hy, rfl⟩
  · exact h x hmem
  · exact hf y hy

theorem mem_mapIdxFrom {α β : Type} {x : β} {f : Nat → α → β} :
    ∀ {i : Nat} {l : List α}, x ∈ mapIdxFrom f i l → ∃ j y, y ∈ l ∧ x = f j y := by
  intro i l
  induction l generalizing i with
  | nil => intro hx; simp [mapIdxFrom] at hx
  | cons a as ih =>
    intro hx
    rcases List.mem_cons.1 hx with rfl | hmem
    · exact ⟨i, a, List.mem_cons_self .., rfl⟩
    · rcases ih hmem with ⟨j, y, hy, rfl⟩
      exact ⟨j, y, List.mem_cons_of_mem a hy, rfl⟩

/-! ## Claim theorems: the cell-state invariant -/

/-- Shows C3 false as stated: a freshly questioned cell satisfies the full
invariant, yet revealing it leaves `isQuestioned` set, so the revealed cell
is still questioned after `revealCell`. -/
theorem cell_invariant_not_preserved :
    boardInvariant [[{ createEmptyCell 0 0 with isQuestioned := true }]] ∧
      ¬ boardInvariant
        (revealCell [[{ createEmptyCell 0 0 with isQuestioned := true }]] 0 0) := by
  decide

/-- C3 (amended): the full invariant holds on every freshly created board;
the flag/question exclusivity half is preserved by every engine operation,
while the revealed-cells half is not preserved in general (`revealCell`
keeps `isQuestioned`, and `revealAllMines` reveals flagged mines). -/
theorem cell_invariant_status :
    (∀ rows cols : Nat, boardInvariant (initializeEmptyBoard rows cols)) ∧
    (∀ cells : Board, flagQuestionExclusive cells →
      (∀ row col : Int, flagQuestionExclusive (revealCell cells row col)) ∧
      (∀ (row col : Int) (b : Board), toggleFlag cells row col = some b →
        flagQuestionExclusive b) ∧
      (∀ (row col : Int) (b : Board), toggleQuestion cells row col = some b →
        flagQuestionExclusive b) ∧
      (∀ (shuffle : List Position → List Position) (m : Nat) (fc : Position),
        flagQuestionExclusive (placeMines shuffle cells m fc)) ∧
      flagQuestionExclusive (calculateNeighborMines cells) ∧
      (∀ er ec : Int, flagQuestionExclusive (revealAllMines cells er ec))) := by
  constructor
  · intro rows cols x hx
    rcases List.mem_flatten.1 hx with ⟨rowl, hrowl, hxrow⟩
    rcases List.mem_map.1 hrowl with ⟨r, -, rfl⟩
    rcases List.mem_map.1 hxrow with ⟨c, -, rfl⟩
    exact ⟨by simp [createEmptyCell], fun h => by simp [createEmptyCell] at h⟩
  · intro cells hinv
    refine ⟨?_, ?_, ?_, ?_, ?_, ?_⟩
    · intro row col
      exact flagQuestionExclusive_of_boardFrame (boardFrame_revealCell cells row col) hinv
    · intro row col b hb
      rw [toggleFlag] at hb
      cases hx : getCell? cells row col with
      | none =>
        rw [hx] at hb
        exact Option.noConfusion hb
      | some x =>
        rw [hx] at hb
        obtain rfl := (Option.some.inj hb).symm
        split
        · refine flagQuestionExclusive_setCell hinv fun y hy hcontra => ?_
          rcases hcontra with ⟨hfl, hqu⟩
          cases hyf : y.isFlagged with
          | true =>
            rw [show (toggleFlagCell y).isFlagged = !y.isFlagged from rfl, hyf] at hfl
            exact Bool.noConfusion hfl
          | false =>
            rw [show (toggleFlagCell y).isQuestioned =
              (if !y.isFlagged then false else y.isQuestioned) from rfl, hyf] at hqu
            exact Bool.noConfusion hqu
        · exact hinv
    · intro row col b hb
      rw [toggleQuestion] at hb
      cases hx : getCell? cells row col with
      | none =>
        rw [hx] at hb
        exact Option.noConfusion hb
      | some x =>
        rw [hx] at hb
        obtain rfl := (Option.some.inj hb).symm
        split
        · rename_i hcond
          refine flagQuestionExclusive_setCell hinv fun y hy hcontra => ?_
          obtain rfl : x = y := Option.some.inj (hx.symm.trans hy)
          rcases hcontra with ⟨hfl, -⟩
          rw [show (toggleQuestionCell x).isFlagged = x.isFlagged from rfl,
            hcond.2] at hfl
          exact Bool.noConfusion hfl
        · exact hinv
    · intro shuffle m fc
      rw [placeMines]
      generalize (List.take _ _ : List Position) = l
      induction l generalizing cells with
      | nil => exact hinv
      | cons p ps ih =>
        refine ih _ (flagQuestionExclusive_setCell hinv fun y hy hcontra => ?_)
        exact hinv y (getCell?_mem hy)
          ⟨by simpa [setMineCell] using hcontra.1, by simpa [setMineCell] using hcontra.2⟩
    · intro x hx
      rw [calculateNeighborMines] at hx
      rcases List.mem_flatten.1 hx with ⟨rowl, hrowl, hxrow⟩
      rcases mem_mapIdxFrom hrowl with ⟨i, rrow, hrrow, rfl⟩
      rcases mem_mapIdxFrom hxrow with ⟨j, y, hy, rfl⟩
      have hmem : y ∈ cells.flatten := List.mem_flatten.2 ⟨rrow, hrrow, hy⟩
      have hyinv := hinv y hmem
      split
      · simpa using hyinv
      · exact hyinv
    · intro er ec x hx
      rw [revealAllMines] at hx
      rcases List.mem_flatten.1 hx with ⟨rowl, hrowl, hxrow⟩
      rcases List.mem_map.1 hrowl with ⟨rrow, hrrow, rfl⟩
      rcases List.mem_map.1 hxrow with ⟨y, hy, rfl⟩
      have hyinv := hinv y (List.mem_flatten.2 ⟨rrow, hrrow, hy⟩)
      simpa [revealMineCell] using hyinv

/-- Applies C3 (amended) to a concrete fresh 2-by-2 board: the board
satisfies the full invariant and stays flag/question exclusive through a
reveal. -/
theorem cell_invariant_status_witness :
    flagQuestionExclusive (revealCell (initializeEmptyBoard 2 2) 0 0) :=
  (cell_invariant_status.2 (initializeEmptyBoard 2 2)
    (fun x hx => ((cell_invariant_status.1 2 2) x hx).1)).1 0 0

/-! ## Mine placement -/

/-- Counts the mines on a board. -/
def mineCount (cells : Board) : Nat :=
  (cells.flatten.filter fun c => c.isMine).length

theorem mem_gridPositions {rows cols : Nat} {p : Position} :
    p ∈ gridPositions rows cols ↔
      0 ≤ p.1 ∧ p.1 < (rows : Int) ∧ 0 ≤ p.2 ∧ p.2 < (cols : Int) := by
  obtain ⟨p1, p2⟩ := p
  simp only [gridPositions, List.mem_flatMap, List.mem_map, List.mem_range]
  constructor
  · rintro ⟨r, hr, c, hc, h⟩
    have h1 : (r : Int) = p1 := congrArg Prod.fst h
    have h2 : (c : Int) = p2 := congrArg Prod.snd h
    refine ⟨by omega, by omega, by omega, by omega⟩
  · rintro ⟨h1, h2, h3, h4⟩
    refine ⟨p1.toNat, by omega, p2.toNat, by omega, ?_⟩
    refine Prod.ext ?_ ?_
    · show (p1.toNat : Int) = p1
      omega
    · show (p2.toNat : Int) = p2
      omega

theorem nodup_gridPositions (rows cols : Nat) : (gridPositions rows cols).Nodup := by
  rw [gridPositions, List.nodup_flatMap]
  constructor
  · intro r hr
    have hinj : Function.Injective fun c : Nat => (Int.ofNat r, Int.ofNat c) := by
      intro a b hab
      have h2 : (a : Int) = (b : Int) := congrArg Prod.snd hab
      omega
    exact List.Nodup.map hinj (List.nodup_range cols)
  · refine List.Pairwise.imp ?_ (List.nodup_range rows)
    intro a b hab x hxa hxb
    rcases List.mem_map.1 hxa with ⟨c1, -, rfl⟩
    rcases List.mem_map.1 hxb with ⟨c2, -, h⟩
    have h1 : (b : Int) = (a : Int) := congrArg Prod.fst h
    exact hab (by omega)

theorem filter_length_modifyAt_flip (pred : Cell → Bool) (f : Cell → Cell)
    {l : List Cell} {j : Nat} {x : Cell} (hx : l[j]? = some x)
    (h0 : pred x = false) (h1 : pred (f x) = true) :
    ((modifyAt l j f).filter pred).length = (l.filter pred).length + 1 := by
  induction l generalizing j with
  | nil => simp at hx
  | cons a as ih =>
    cases j with
    | zero =>
      obtain rfl : a = x := by simpa using hx
      show (List.filter pred (f a :: as)).length = (List.filter pred (a :: as)).length + 1
      rw [List.filter_cons, List.filter_cons, h0, h1]
      simp
    | succ n =>
      have hx' : as[n]? = some x := by simpa using hx
      show (List.filter pred (a :: modifyAt as n f)).length =
        (List.filter pred (a :: as)).length + 1
      rw [List.filter_cons, List.filter_cons]
      have hrec := ih hx'
      split <;> simp only [List.length_cons, hrec]

theorem filter_flatten_modifyAt_row_flip (pred : Cell → Bool) {cells : Board} {i : Nat}
    {row : List Cell} (hrow : cells[i]? = some row) {F : List Cell → List Cell}
    (hF : ((F row).filter pred).length = (row.filter pred).length + 1) :
    ((modifyAt cells i F).flatten.filter pred).length =
      (cells.flatten.filter pred).length + 1 := by
  induction cells generalizing i with
  | nil => simp at hrow
  | cons a as ih =>
    cases i with
    | zero =>
      obtain rfl : a = row := by simpa using hrow
      show ((F a :: as).flatten.filter pred).length = _
      rw [filter_flatten_cons, filter_flatten_cons, hF]
      omega
    | succ n =>
      have hrow' : as[n]? = some row := by simpa using hrow
      show ((a :: modifyAt as n F).flatten.filter pred).length = _
      rw [filter_flatten_cons, filter_flatten_cons, ih hrow']
      omega

theorem mineCount_setCell {cells : Board} {r c : Int} {x : Cell}
    (hx : getCell? cells r c = some x) (h0 : x.isMine = false) :
    mineCount (setCell cells r c setMineCell) = mineCount cells + 1 := by
  obtain ⟨hr0, hc0, row, hrow, hcell⟩ := getCell?_inv hx
  rw [mineCount, mineCount, setCell, if_neg (by omega)]
  exact filter_flatten_modifyAt_row_flip _ hrow
    (filter_length_modifyAt_flip _ setMineCell hcell h0 rfl)

theorem mineCount_foldl_setMine :
    ∀ (l : List Position) (b : Board), l.Nodup →
      (∀ p ∈ l, ∃ x, getCell? b p.1 p.2 = some x ∧ x.isMine = false) →
      mineCount (l.foldl (fun bb p => setCell bb p.1 p.2 setMineCell) b) =
        mineCount b + l.length := by
  intro l
  induction l with
  | nil =>
    intro b _ _
    simp
  | cons p ps ih =>
    intro b hnd hvl
    obtain ⟨x, hx, hx0⟩ := hvl p (List.mem_cons_self ..)
    have hstep := mineCount_setCell hx hx0
    have hrest : ∀ q ∈ ps, ∃ y,
        getCell? (setCell b p.1 p.2 setMineCell) q.1 q.2 = some y ∧ y.isMine = false := by
      intro q hq
      obtain ⟨y, hy, hy0⟩ := hvl q (List.mem_cons_of_mem p hq)
      refine ⟨y, ?_, hy0⟩
      rw [getCell?_setCell, if_neg ?_]
      · exact hy
      · rintro ⟨h1, h2⟩
        exact (List.nodup_cons.1 hnd).1 ((Prod.ext h1 h2) ▸ hq)
    have hfold := ih (setCell b p.1 p.2 setMineCell) (List.nodup_cons.1 hnd).2 hrest
    show mineCount (List.foldl _ (setCell b p.1 p.2 setMineCell) ps) = _
    rw [hfold, hstep, List.length_cons]
    omega

theorem getCell?_foldl_setMine_not_mem :
    ∀ (l : List Position) (b : Board) (q : Position), q ∉ l →
      getCell? (l.foldl (fun bb p => setCell bb p.1 p.2 setMineCell) b) q.1 q.2 =
        getCell? b q.1 q.2 := by
  intro l
  induction l with
  | nil =>
    intro b q _
    rfl
  | cons p ps ih =>
    intro b q hq
    show getCell? (List.foldl _ (setCell b p.1 p.2 setMineCell) ps) q.1 q.2 = _
    rw [ih _ q (fun h => hq (List.mem_cons_of_mem p h)), getCell?_setCell,
      if_neg fun hc => hq (List.mem_cons.2 (Or.inl (Prod.ext hc.1 hc.2)))]

theorem mem_availablePositions {cells : Board} {fc p : Position} :
    p ∈ availablePositions cells fc ↔
      p ∈ gridPositions cells.length (numCols cells) ∧
        p ≠ fc ∧
        p ∉ getNeighborPositions fc.1 fc.2 cells.length (numCols cells) := by
  simp only [availablePositions, List.mem_filter, decide_eq_true_eq, List.mem_cons,
    not_or]

/-! ## Claim theorems: mine placement -/

/-- C2: after `placeMines` on a mine-free, flag-free board, the first-click
cell and all its in-bounds neighbors are mine-free, and exactly
`min(totalMines, eligibleCount)` cells carry a mine, where the eligible
cells are those outside the first click and its neighborhood.  The random
shuffle is any function that permutes the eligible-position list. -/
theorem placeMines_spec (shuffle : List Position → List Position) (cells : Board)
    (m : Nat) (fc : Position) (hrect : rectB cells = true)
    (hfc : validB cells fc = true)
    (hnomine : ∀ x ∈ cells.flatten, x.isMine = false)
    (hnoflag : ∀ x ∈ cells.flatten, x.isFlagged = false)
    (hperm : (shuffle (availablePositions cells fc)).Perm (availablePositions cells fc)) :
    (∀ x, getCell? (placeMines shuffle cells m fc) fc.1 fc.2 = some x →
      x.isMine = false) ∧
    (∀ p ∈ getNeighborPositions fc.1 fc.2 cells.length (numCols cells),
      ∀ x, getCell? (placeMines shuffle cells m fc) p.1 p.2 = some x →
        x.isMine = false) ∧
    mineCount (placeMines shuffle cells m fc) =
      min m (availablePositions cells fc).length := by
  have havailnd : (availablePositions cells fc).Nodup :=
    List.Nodup.filter _ (nodup_gridPositions _ _)
  have hplace : placeMines shuffle cells m fc =
      ((shuffle (availablePositions cells fc)).take
          (min m (shuffle (availablePositions cells fc)).length)).foldl
        (fun b p => setCell b p.1 p.2 setMineCell) cells := rfl
  have hsub : ∀ p, p ∈ (shuffle (availablePositions cells fc)).take
      (min m (shuffle (availablePositions cells fc)).length) →
      p ∈ availablePositions cells fc := by
    intro p hp
    exact hperm.mem_iff.1 ((List.take_sublist _ _).subset hp)
  have hnd : ((shuffle (availablePositions cells fc)).take
      (min m (shuffle (availablePositions cells fc)).length)).Nodup :=
    (List.take_sublist _ _).nodup (hperm.nodup_iff.2 havailnd)
  refine ⟨?_, ?_, ?_⟩
  · intro x hx
    rw [hplace, getCell?_foldl_setMine_not_mem _ _ fc
      (fun h => (mem_availablePositions.1 (hsub fc h)).2.1 rfl)] at hx
    exact hnomine x (getCell?_mem hx)
  · intro p hpn x hx
    rw [hplace, getCell?_foldl_setMine_not_mem _ _ p
      (fun h => (mem_availablePositions.1 (hsub p h)).2.2 hpn)] at hx
    exact hnomine x (getCell?_mem hx)
  · have hzero : mineCount cells = 0 := by
      rw [mineCount, List.length_eq_zero]
      refine List.filter_eq_nil_iff.2 fun a ha => ?_
      rw [hnomine a ha]
      simp
    have hvl : ∀ p ∈ (shuffle (availablePositions cells fc)).take
        (min m (shuffle (availablePositions cells fc)).length),
        ∃ x, getCell? cells p.1 p.2 = some x ∧ x.isMine = false := by
      intro p hp
      have hpg := (mem_availablePositions.1 (hsub p hp)).1
      have hbounds := mem_gridPositions.1 hpg
      have hvalid : validB cells (p.1, p.2) = true := by
        simp only [validB, isValidPosition, Bool.and_eq_true, decide_eq_true_eq]
        exact ⟨⟨⟨hbounds.1, hbounds.2.1⟩, hbounds.2.2.1⟩, hbounds.2.2.2⟩
      have hsome := (validB_iff_isSome hrect p.1 p.2).1 hvalid
      rcases Option.isSome_iff_exists.1 hsome with ⟨x, hx⟩
      exact ⟨x, hx, hnomine x (getCell?_mem hx)⟩
    rw [hplace, mineCount_foldl_setMine _ cells hnd hvl, hzero, List.length_take,
      hperm.length_eq]
    omega

/-- Applies C2 on a fresh 3-by-3 board, identity shuffle, first click at the
corner `(0, 0)` and 3 requested mines: exactly `min 3 5 = 3` mines are
placed among the 5 eligible cells. -/
theorem placeMines_spec_witness :
    mineCount (placeMines id (initializeEmptyBoard 3 3) 3 (0, 0)) =
      min 3 (availablePositions (initializeEmptyBoard 3 3) (0, 0)).length :=
  (placeMines_spec id (initializeEmptyBoard 3 3) 3 (0, 0) (by decide) (by decide)
    (by decide) (by decide) (List.Perm.refl _)).2.2

/-! ## Fuel stability: the reveal recursion terminates -/

theorem setCell_eq_self_of_none {cells : Board} {r c : Int} {f : Cell → Cell}
    (h : getCell? cells r c = none) : setCell cells r c f = cells := by
  rw [setCell]
  split
  · rfl
  · rename_i hneg
    push_neg at hneg
    refine modifyAt_eq_self fun rowl hrow => modifyAt_eq_self fun a ha => ?_
    exfalso
    rw [getCell?, if_neg (by push_neg; exact hneg), hrow] at h
    rw [show ((some rowl).bind fun rr => rr[c.toNat]?) = rowl[c.toNat]? from rfl] at h
    rw [ha] at h
    exact Option.noConfusion h

theorem revealFold_id {fuel : Nat} {acc : Board}
    (h : ∀ row col : Int, revealCellAux fuel acc row col = acc) :
    ∀ ns : List Position, revealFold fuel ns acc = acc := by
  intro ns
  induction ns with
  | nil => rfl
  | cons p ns ih =>
    rw [revealFold_cons]
    split
    · rw [h p.1 p.2]
      exact ih
    · exact ih

theorem revealCellAux_all_revealed {cells : Board} (h : countUnrevealed cells = 0) :
    ∀ (fuel : Nat) (row col : Int), revealCellAux fuel cells row col = cells := by
  intro fuel
  induction fuel with
  | zero =>
    intro row col
    rfl
  | succ fuel ih =>
    intro row col
    rw [revealCellAux_succ]
    by_cases hval : isValidPosition row col cells.length (numCols cells) = true
    · rw [if_neg (by simp [hval])]
      cases hcell : getCell? cells row col with
      | some x =>
        have hrev := revealed_of_countUnrevealed_zero h hcell
        rw [if_pos (Or.inl (show (getCellD cells row col).isRevealed = true by
          rw [getCellD, hcell]
          exact hrev))]
      | none =>
        have hdef : getCellD cells row col = createEmptyCell row col := by
          rw [getCellD, hcell]
          rfl
        rw [if_neg (by rw [hdef]; rintro (hc | hc) <;> exact Bool.noConfusion hc),
          if_pos (by rw [hdef]; exact ⟨rfl, rfl⟩),
          setCell_eq_self_of_none hcell, revealFold_id ih]
    · rw [if_pos hval]

theorem revealFold_fuel_congr (f₁ g : Nat)
    (IH : ∀ cells : Board, rectB cells = true → ∀ f₂ : Nat,
      countUnrevealed cells ≤ f₁ → countUnrevealed cells ≤ f₂ →
      ∀ row col : Int, revealCellAux f₁ cells row col = revealCellAux f₂ cells row col) :
    ∀ (ns : List Position) (acc : Board), rectB acc = true →
      countUnrevealed acc ≤ f₁ → countUnrevealed acc ≤ g →
      revealFold f₁ ns acc = revealFold g ns acc := by
  intro ns
  induction ns with
  | nil =>
    intro acc _ _ _
    rfl
  | cons p ns ih =>
    intro acc hrect h₁ h₂
    rw [revealFold_cons, revealFold_cons]
    by_cases hguard : (getCellD acc p.1 p.2).isRevealed = false ∧
        (getCellD acc p.1 p.2).isFlagged = false
    · rw [if_pos hguard, if_pos hguard, IH acc hrect g h₁ h₂ p.1 p.2]
      have hframe := boardFrame_revealCellAux g acc p.1 p.2
      exact ih (revealCellAux g acc p.1 p.2) (boardFrame_rectB hframe hrect)
        (Nat.le_trans (countUnrevealed_le hframe) h₁)
        (Nat.le_trans (countUnrevealed_le hframe) h₂)
    · rw [if_neg hguard, if_neg hguard]
      exact ih acc hrect h₁ h₂

theorem revealCellAux_fuel_stable :
    ∀ (f₁ : Nat) (cells : Board), rectB cells = true → ∀ f₂ : Nat,
      countUnrevealed cells ≤ f₁ → countUnrevealed cells ≤ f₂ →
      ∀ row col : Int, revealCellAux f₁ cells row col = revealCellAux f₂ cells row col := by
  intro f₁
  induction f₁ with
  | zero =>
    intro cells hrect f₂ h₁ h₂ row col
    have h0 : countUnrevealed cells = 0 := Nat.le_zero.1 h₁
    rw [revealCellAux_all_revealed h0 0 row col, revealCellAux_all_revealed h0 f₂ row col]
  | succ f₁ ih =>
    intro cells hrect f₂ h₁ h₂ row col
    cases f₂ with
    | zero =>
      have h0 : countUnrevealed cells = 0 := Nat.le_zero.1 h₂
      rw [revealCellAux_all_revealed h0 (f₁ + 1) row col,
        revealCellAux_all_revealed h0 0 row col]
    | succ g =>
      rw [revealCellAux_succ, revealCellAux_succ]
      by_cases hval : isValidPosition row col cells.length (numCols cells) = true
      · have hnv : ¬ ¬ isValidPosition row col cells.length (numCols cells) = true :=
          fun h => h hval
        rw [if_neg hnv, if_neg hnv]
        by_cases hrf : (getCellD cells row col).isRevealed = true ∨
            (getCellD cells row col).isFlagged = true
        · rw [if_pos hrf, if_pos hrf]
        · rw [if_neg hrf, if_neg hrf]
          have hsome : (getCell? cells row col).isSome :=
            (validB_iff_isSome hrect row col).1 hval
          rcases Option.isSome_iff_exists.1 hsome with ⟨x, hx⟩
          have hxD : getCellD cells row col = x := by
            rw [getCellD, hx]
            rfl
          have hxrev : x.isRevealed = false := by
            rcases Bool.eq_false_or_eq_true x.isRevealed with hb | hb
            · exact absurd (Or.inl (hxD ▸ hb)) hrf
            · exact hb
          have hcount := countUnrevealed_setCell_reveal hx hxrev
          have hframe :=
            @boardFrame_setCell cells (fun c => { c with isRevealed := true })
              cellFrame_reveal row col
          by_cases hzero : (getCellD cells row col).neighborMines = 0 ∧
              (getCellD cells row col).isMine = false
          · rw [if_pos hzero, if_pos hzero]
            exact revealFold_fuel_congr f₁ g ih _ _
              (boardFrame_rectB hframe hrect) (by omega) (by omega)
          · rw [if_neg hzero, if_neg hzero]
      · rw [if_pos hval, if_pos hval]

/-! ## Claim theorems: termination of the flood fill -/

/-- C9: the flood fill of `revealCell` terminates on every finite board:
any fuel of at least the number of unrevealed cells computes the very board
`revealCell` returns, and whenever the call does work the number of
unrevealed cells strictly decreases — the well-founded measure justifying
the source's recursion. -/
theorem revealCell_terminates (cells : Board) (row col : Int) (fuel : Nat)
    (hrect : rectB cells = true) (hfuel : countUnrevealed cells ≤ fuel) :
    revealCellAux fuel cells row col = revealCell cells row col ∧
    ((validB cells (row, col) = true ∧ (getCellD cells row col).isRevealed = false ∧
        (getCellD cells row col).isFlagged = false) →
      countUnrevealed (revealCell cells row col) < countUnrevealed cells) := by
  constructor
  · exact revealCellAux_fuel_stable fuel cells hrect (countUnrevealed cells + 1)
      hfuel (by omega) row col
  · rintro ⟨hval, hrev, hflag⟩
    rw [revealCell, revealCellAux_succ]
    have hval' : isValidPosition row col cells.length (numCols cells) = true := hval
    have hnv : ¬ ¬ isValidPosition row col cells.length (numCols cells) = true :=
      fun h => h hval'
    have hnrf : ¬ ((getCellD cells row col).isRevealed = true ∨
        (getCellD cells row col).isFlagged = true) := by
      rintro (hc | hc) <;> simp_all
    rw [if_neg hnv, if_neg hnrf]
    have hsome : (getCell? cells row col).isSome :=
      (validB_iff_isSome hrect row col).1 hval
    rcases Option.isSome_iff_exists.1 hsome with ⟨x, hx⟩
    have hxrev : x.isRevealed = false := by
      rw [getCellD, hx] at hrev
      exact hrev
    have hcount := countUnrevealed_setCell_reveal hx hxrev
    split
    · have hfold := boardFrame_revealFold
        (boardFrame_revealCellAux (countUnrevealed cells))
        (getNeighborPositions row col cells.length (numCols cells))
        (setCell cells row col fun c => { c with isRevealed := true })
      have := countUnrevealed_le hfold
      omega
    · omega

/-- Applies C9 on a fresh 2-by-2 board with generous fuel: the fuel is
irrelevant and the reveal strictly decreases the unrevealed count. -/
theorem revealCell_terminates_witness :
    revealCellAux 9 (initializeEmptyBoard 2 2) 0 0 =
        revealCell (initializeEmptyBoard 2 2) 0 0 ∧
      countUnrevealed (revealCell (initializeEmptyBoard 2 2) 0 0) <
        countUnrevealed (initializeEmptyBoard 2 2) := by
  have h := revealCell_terminates (initializeEmptyBoard 2 2) 0 0 9 (by decide) (by decide)
  exact ⟨h.1, h.2 ⟨by decide, by decide, by decide⟩⟩

/-! ## The zero-region and its closure -/

/-- Decides that every non-mine cell's stored `neighborMines` equals the
count of mines among its in-bounds neighbors, i.e. the board is as
`calculateNeighborMines` leaves it. -/
def correctCountsB (cells : Board) : Bool :=
  (List.range cells.length).all fun r =>
    (List.range (numCols cells)).all fun c =>
      match getCell? cells (Int.ofNat r) (Int.ofNat c) with
      | some x =>
        x.isMine ||
          (x.neighborMines ==
            ((getNeighborPositions (Int.ofNat r) (Int.ofNat c) cells.length
                (numCols cells)).filter
              fun p => (getCellD cells p.1 p.2).isMine).length)
      | none => true

theorem zeroCellB_some {cells : Board} {p : Position} (h : zeroCellB cells p = true) :
    ∃ x, getCell? cells p.1 p.2 = some x ∧ x.neighborMines = 0 ∧ x.isMine = false := by
  rw [zeroCellB] at h
  cases hx : getCell? cells p.1 p.2 with
  | none =>
    rw [hx] at h
    exact Bool.noConfusion h
  | some x =>
    rw [hx] at h
    simp only [Bool.and_eq_true, beq_iff_eq, Bool.not_eq_true'] at h
    exact ⟨x, rfl, h.1, h.2⟩

theorem getFlg_eq_false_of_all {cells : Board}
    (h : ∀ x ∈ cells.flatten, x.isFlagged = false) (p : Position) :
    getFlg cells p = false := by
  rw [getFlg, getCellD]
  cases hx : getCell? cells p.1 p.2 with
  | none => rfl
  | some x => exact h x (getCell?_mem hx)

theorem getRev_eq_false_of_all {cells : Board}
    (h : ∀ x ∈ cells.flatten, x.isRevealed = false) (p : Position) :
    getRev cells p = false := by
  rw [getRev, getCellD]
  cases hx : getCell? cells p.1 p.2 with
  | none => rfl
  | some x => exact h x (getCell?_mem hx)

theorem mem_getNeighborPositions {row col : Int} {rows cols : Nat} {p : Position} :
    p ∈ getNeighborPositions row col rows cols ↔
      adjacentB (row, col) p = true ∧ isValidPosition p.1 p.2 rows cols = true := by
  rw [getNeighborPositions, adjacentB]
  simp only [List.mem_filter, List.mem_map, List.any_eq_true, beq_iff_eq]
  constructor
  · rintro ⟨⟨d, hd, rfl⟩, hv⟩
    exact ⟨⟨d, hd, rfl⟩, hv⟩
  · rintro ⟨⟨d, hd, rfl⟩, hv⟩
    exact ⟨⟨d, hd, rfl⟩, hv⟩

theorem zpath_start_zero {cells : Board} {s q : Position} (h : ZPath cells s q) :
    zeroCellB cells s = true := by
  induction h with
  | refl hz => exact hz
  | step _ _ _ ih => exact ih

theorem zpath_zero {cells : Board} {s q : Position} (h : ZPath cells s q) :
    zeroCellB cells q = true := by
  induction h with
  | refl hz => exact hz
  | step _ _ hz _ => exact hz

theorem zpath_prepend {cells : Board} {start n p : Position}
    (hz : zeroCellB cells start = true) (hadj : adjacentB start n = true)
    (h : ZPath cells n p) : ZPath cells start p := by
  induction h with
  | refl hzn => exact ZPath.step (ZPath.refl hz) hadj hzn
  | step _ hadj' hz' ih => exact ZPath.step ih hadj' hz'

theorem zpath_congr {b₀ b₁ : Board} (h : ∀ q, zeroCellB b₁ q = zeroCellB b₀ q)
    {start p : Position} (hp : ZPath b₁ start p) : ZPath b₀ start p := by
  induction hp with
  | refl hz => exact ZPath.refl ((h _) ▸ hz)
  | step _ hadj hz ih => exact ZPath.step ih hadj ((h _) ▸ hz)

theorem inClosure_congr {b₀ b₁ : Board} (h : ∀ q, zeroCellB b₁ q = zeroCellB b₀ q)
    {start p : Position} (hp : inClosure b₁ start p) : inClosure b₀ start p := by
  rcases hp with rfl | ⟨q, hq, hadj⟩
  · exact Or.inl rfl
  · exact Or.inr ⟨q, zpath_congr h hq, hadj⟩

theorem inClosure_of_nbr {cells : Board} {start n p : Position}
    (hz : zeroCellB cells start = true) (hadj : adjacentB start n = true)
    (hp : inClosure cells n p) : inClosure cells start p := by
  rcases hp with rfl | ⟨q, hq, hqa⟩
  · exact Or.inr ⟨start, ZPath.refl hz, hadj⟩
  · exact Or.inr ⟨q, zpath_prepend hz hadj hq, hqa⟩

theorem getRev_setCell_cases {cells : Board} {r c : Int} {q : Position}
    (h : getRev (setCell cells r c fun cc => { cc with isRevealed := true }) q = true) :
    q = (r, c) ∨ getRev cells q = true := by
  rw [getRev, getCellD, getCell?_setCell] at h
  split at h
  · rename_i hc
    left
    exact Prod.ext hc.1 hc.2
  · right
    exact h

theorem getRev_setCell_self {cells : Board} {r c : Int} {x : Cell}
    (hx : getCell? cells r c = some x) :
    getRev (setCell cells r c fun cc => { cc with isRevealed := true }) (r, c) = true := by
  rw [getRev, getCellD, getCell?_setCell, if_pos ⟨rfl, rfl⟩, hx]
  rfl

theorem getRev_setCell_other {cells : Board} {r c : Int} {q : Position} (hq : q ≠ (r, c)) :
    getRev (setCell cells r c fun cc => { cc with isRevealed := true }) q =
      getRev cells q := by
  rw [getRev, getRev, getCellD, getCellD, getCell?_setCell,
    if_neg fun hc => hq (Prod.ext hc.1 hc.2)]

theorem zeroCellB_of_cell {cells : Board} {r c : Int} {x : Cell}
    (hx : getCell? cells r c = some x) (h0 : x.neighborMines = 0)
    (h1 : x.isMine = false) : zeroCellB cells (r, c) = true := by
  rw [zeroCellB]
  show (match getCell? cells r c with
    | some cc => cc.neighborMines == 0 && !cc.isMine
    | none => false) = true
  rw [hx]
  show (x.neighborMines == 0 && !x.isMine) = true
  rw [h0, h1]
  rfl

/-! ## Soundness: the flood fill reveals only the closure -/

theorem revealFold_sound (fuel : Nat)
    (IH : ∀ (b : Board), rectB b = true → ∀ (r c : Int) (q : Position),
      getRev (revealCellAux fuel b r c) q = true →
      getRev b q = true ∨ inClosure b (r, c) q)
    (cells : Board) (start : Position) (hz : zeroCellB cells start = true) :
    ∀ (ns : List Position) (acc : Board), rectB acc = true →
      (∀ p, zeroCellB acc p = zeroCellB cells p) →
      (∀ n ∈ ns, adjacentB start n = true) →
      ∀ q, getRev (revealFold fuel ns acc) q = true →
        getRev acc q = true ∨ inClosure cells start q := by
  intro ns
  induction ns with
  | nil =>
    intro acc _ _ _ q hq
    exact Or.inl hq
  | cons n ns ih =>
    intro acc hrect hstatic hadj q hq
    rw [revealFold_cons] at hq
    by_cases hguard : (getCellD acc n.1 n.2).isRevealed = false ∧
        (getCellD acc n.1 n.2).isFlagged = false
    · rw [if_pos hguard] at hq
      have hframe := boardFrame_revealCellAux fuel acc n.1 n.2
      rcases ih (revealCellAux fuel acc n.1 n.2) (boardFrame_rectB hframe hrect)
        (fun p => (boardFrame_zeroCellB hframe p).trans (hstatic p))
        (fun m hm => hadj m (List.mem_cons_of_mem n hm)) q hq with hstep | hclo
      · rcases IH acc hrect n.1 n.2 q hstep with hacc | hcln
        · exact Or.inl hacc
        · exact Or.inr (inClosure_of_nbr hz (hadj n (List.mem_cons_self ..))
            (inClosure_congr hstatic hcln))
      · exact Or.inr hclo
    · rw [if_neg hguard] at hq
      exact ih acc hrect hstatic (fun m hm => hadj m (List.mem_cons_of_mem n hm)) q hq

theorem revealCellAux_sound :
    ∀ (fuel : Nat) (cells : Board), rectB cells = true → ∀ (row col : Int) (q : Position),
      getRev (revealCellAux fuel cells row col) q = true →
      getRev cells q = true ∨ inClosure cells (row, col) q := by
  intro fuel
  induction fuel with
  | zero =>
    intro cells _ row col q hq
    exact Or.inl hq
  | succ fuel ih =>
    intro cells hrect row col q hq
    rw [revealCellAux_succ] at hq
    by_cases hval : isValidPosition row col cells.length (numCols cells) = true
    · have hnv : ¬ ¬ isValidPosition row col cells.length (numCols cells) = true :=
        fun h => h hval
      rw [if_neg hnv] at hq
      by_cases hrf : (getCellD cells row col).isRevealed = true ∨
          (getCellD cells row col).isFlagged = true
      · rw [if_pos hrf] at hq
        exact Or.inl hq
      · rw [if_neg hrf] at hq
        by_cases hzero : (getCellD cells row col).neighborMines = 0 ∧
            (getCellD cells row col).isMine = false
        · rw [if_pos hzero] at hq
          have hx : (getCell? cells row col).isSome :=
            (validB_iff_isSome hrect row col).1 hval
          rcases Option.isSome_iff_exists.1 hx with ⟨x, hxx⟩
          have hxD : getCellD cells row col = x := by
            rw [getCellD, hxx]
            rfl
          have hzc : zeroCellB cells (row, col) = true :=
            zeroCellB_of_cell hxx (hxD ▸ hzero.1) (hxD ▸ hzero.2)
          have hframe : boardFrame cells
              (setCell cells row col fun c => { c with isRevealed := true }) :=
            boardFrame_setCell cellFrame_reveal row col
          rcases revealFold_sound fuel ih cells (row, col) hzc _ _
            (boardFrame_rectB hframe hrect) (fun p => boardFrame_zeroCellB hframe p)
            (fun m hm => (mem_getNeighborPositions.1 hm).1) q hq with hnewq | hclo
          · rcases getRev_setCell_cases hnewq with rfl | hcells
            · exact Or.inr (Or.inl rfl)
            · exact Or.inl hcells
          · exact Or.inr hclo
        · rw [if_neg hzero] at hq
          rcases getRev_setCell_cases hq with rfl | hcells
          · exact Or.inr (Or.inl rfl)
          · exact Or.inl hcells
    · rw [if_pos hval] at hq
      exact Or.inl hq

/-! ## Completeness: the flood fill reveals the whole closure -/

theorem revealFold_reveals (fuel : Nat)
    (IH1 : ∀ (b : Board), rectB b = true → countUnrevealed b ≤ fuel →
      ∀ r c : Int, validB b (r, c) = true → getRev b (r, c) = false →
        getFlg b (r, c) = false → getRev (revealCellAux fuel b r c) (r, c) = true)
    (cells : Board) (hrect : rectB cells = true) :
    ∀ (ns : List Position) (acc : Board), boardFrame cells acc →
      countUnrevealed acc ≤ fuel → (∀ n ∈ ns, validB cells n = true) →
      ∀ p ∈ ns, getFlg cells p = false → getRev (revealFold fuel ns acc) p = true := by
  intro ns
  induction ns with
  | nil =>
    intro acc _ _ _ p hp _
    simp at hp
  | cons n ns ih =>
    intro acc hframe hcnt hvalid p hp hfp
    rw [revealFold_cons]
    by_cases hguard : (getCellD acc n.1 n.2).isRevealed = false ∧
        (getCellD acc n.1 n.2).isFlagged = false
    · rw [if_pos hguard]
      have hauxframe := boardFrame_revealCellAux fuel acc n.1 n.2
      have hstepframe := boardFrame_trans hframe hauxframe
      rcases List.mem_cons.1 hp with rfl | hptail
      · have hrectacc : rectB acc = true := boardFrame_rectB hframe hrect
        have hvacc : validB acc (p.1, p.2) = true := by
          rw [boardFrame_validB hframe]
          exact hvalid p (List.mem_cons_self ..)
        have hrev := IH1 acc hrectacc hcnt p.1 p.2 hvacc hguard.1 hguard.2
        exact boardFrame_getRev_mono
          (boardFrame_revealFold (boardFrame_revealCellAux fuel) ns _) p hrev
      · exact ih _ hstepframe (Nat.le_trans (countUnrevealed_le hauxframe) hcnt)
          (fun m hm => hvalid m (List.mem_cons_of_mem n hm)) p hptail hfp
    · rw [if_neg hguard]
      rcases List.mem_cons.1 hp with rfl | hptail
      · have hflg : getFlg acc p = false := by
          rw [boardFrame_getFlg hframe]
          exact hfp
        have hrev : getRev acc p = true := by
          cases hcase : getRev acc p with
          | true => rfl
          | false => exact absurd ⟨hcase, hflg⟩ hguard
        exact boardFrame_getRev_mono
          (boardFrame_revealFold (boardFrame_revealCellAux fuel) ns acc) p hrev
      · exact ih acc hframe hcnt (fun m hm => hvalid m (List.mem_cons_of_mem n hm))
          p hptail hfp

theorem revealFold_sat (fuel : Nat)
    (IH2 : ∀ (b : Board), rectB b = true → countUnrevealed b ≤ fuel → ∀ r c : Int,
      ∀ q p : Position, getRev b q = false →
        getRev (revealCellAux fuel b r c) q = true → zeroCellB b q = true →
        adjacentB q p = true → validB b p = true → getFlg b p = false →
        getRev (revealCellAux fuel b r c) p = true)
    (cells : Board) (hrect : rectB cells = true) :
    ∀ (ns : List Position) (acc : Board), boardFrame cells acc →
      countUnrevealed acc ≤ fuel →
      ∀ q p : Position, getRev acc q = false →
        getRev (revealFold fuel ns acc) q = true → zeroCellB cells q = true →
        adjacentB q p = true → validB cells p = true → getFlg cells p = false →
        getRev (revealFold fuel ns acc) p = true := by
  intro ns
  induction ns with
  | nil =>
    intro acc _ _ q p hq0 hq1 _ _ _ _
    exact absurd (hq0.symm.trans hq1) (by decide)
  | cons n ns ih =>
    intro acc hframe hcnt q p hq0 hq1 hzq hadj hvp hfp
    rw [revealFold_cons] at hq1 ⊢
    by_cases hguard : (getCellD acc n.1 n.2).isRevealed = false ∧
        (getCellD acc n.1 n.2).isFlagged = false
    · rw [if_pos hguard] at hq1 ⊢
      have hauxframe := boardFrame_revealCellAux fuel acc n.1 n.2
      have hstepframe := boardFrame_trans hframe hauxframe
      by_cases hqstep : getRev (revealCellAux fuel acc n.1 n.2) q = true
      · have hp' := IH2 acc (boardFrame_rectB hframe hrect) hcnt n.1 n.2 q p hq0 hqstep
          (by rw [boardFrame_zeroCellB hframe]; exact hzq) hadj
          (by rw [boardFrame_validB hframe]; exact hvp)
          (by rw [boardFrame_getFlg hframe]; exact hfp)
        exact boardFrame_getRev_mono
          (boardFrame_revealFold (boardFrame_revealCellAux fuel) ns _) p hp'
      · have hq0' : getRev (revealCellAux fuel acc n.1 n.2) q = false := by
          cases hcase : getRev (revealCellAux fuel acc n.1 n.2) q with
          | true => exact absurd hcase hqstep
          | false => rfl
        exact ih _ hstepframe (Nat.le_trans (countUnrevealed_le hauxframe) hcnt)
          q p hq0' hq1 hzq hadj hvp hfp
    · rw [if_neg hguard] at hq1 ⊢
      exact ih acc hframe hcnt q p hq0 hq1 hzq hadj hvp hfp

theorem revealCellAux_complete :
    ∀ (fuel : Nat) (cells : Board), rectB cells = true → countUnrevealed cells ≤ fuel →
      ∀ row col : Int,
      (validB cells (row, col) = true → getRev cells (row, col) = false →
        getFlg cells (row, col) = false →
        getRev (revealCellAux fuel cells row col) (row, col) = true) ∧
      (∀ q p : Position, getRev cells q = false →
        getRev (revealCellAux fuel cells row col) q = true →
        zeroCellB cells q = true → adjacentB q p = true → validB cells p = true →
        getFlg cells p = false → getRev (revealCellAux fuel cells row col) p = true) := by
  intro fuel
  induction fuel with
  | zero =>
    intro cells hrect hcnt row col
    have h0 : countUnrevealed cells = 0 := Nat.le_zero.1 hcnt
    constructor
    · intro hv hr _
      exfalso
      have hsome := (validB_iff_isSome hrect row col).1 hv
      rcases Option.isSome_iff_exists.1 hsome with ⟨x, hx⟩
      have hxrev := revealed_of_countUnrevealed_zero h0 hx
      rw [getRev, getCellD, hx] at hr
      exact Bool.noConfusion (hxrev.symm.trans hr)
    · intro q p hq0 hq1 _ _ _ _
      exact absurd (hq0.symm.trans hq1) (by decide)
  | succ fuel ih =>
    intro cells hrect hcnt row col
    by_cases hval : isValidPosition row col cells.length (numCols cells) = true
    · have hnv : ¬ ¬ isValidPosition row col cells.length (numCols cells) = true :=
        fun h => h hval
      have hsome := (validB_iff_isSome hrect row col).1 hval
      rcases Option.isSome_iff_exists.1 hsome with ⟨x, hx⟩
      have hxD : getCellD cells row col = x := by
        rw [getCellD, hx]
        rfl
      by_cases hrf : (getCellD cells row col).isRevealed = true ∨
          (getCellD cells row col).isFlagged = true
      · constructor
        · intro _ hr hf
          exfalso
          rcases hrf with h | h
          · exact Bool.noConfusion ((hr.symm.trans h : (false : Bool) = true))
          · exact Bool.noConfusion ((hf.symm.trans h : (false : Bool) = true))
        · intro q p hq0 hq1 _ _ _ _
          rw [revealCellAux_succ, if_neg hnv, if_pos hrf] at hq1
          exact absurd (hq0.symm.trans hq1) (by decide)
      · have hxrev : x.isRevealed = false := by
          cases hb : x.isRevealed with
          | false => rfl
          | true => exact absurd (Or.inl (hxD ▸ hb)) hrf
        have hcount := countUnrevealed_setCell_reveal hx hxrev
        have hframe : boardFrame cells
            (setCell cells row col fun c => { c with isRevealed := true }) :=
          boardFrame_setCell cellFrame_reveal row col
        by_cases hzero : (getCellD cells row col).neighborMines = 0 ∧
            (getCellD cells row col).isMine = false
        · have hrw : revealCellAux (fuel + 1) cells row col =
              revealFold fuel (getNeighborPositions row col cells.length (numCols cells))
                (setCell cells row col fun c => { c with isRevealed := true }) := by
            rw [revealCellAux_succ, if_neg hnv, if_neg hrf, if_pos hzero]
          constructor
          · intro _ _ _
            rw [hrw]
            exact boardFrame_getRev_mono
              (boardFrame_revealFold (boardFrame_revealCellAux fuel) _ _) (row, col)
              (getRev_setCell_self hx)
          · intro q p hq0 hq1 hzq hadj hvp hfp
            rw [hrw] at hq1 ⊢
            by_cases hqstart : q = (row, col)
            · subst hqstart
              have hpmem : p ∈ getNeighborPositions row col cells.length (numCols cells) :=
                mem_getNeighborPositions.2 ⟨hadj, hvp⟩
              exact revealFold_reveals fuel
                (fun b hb hc r c hv' hr' hf' => (ih b hb hc r c).1 hv' hr' hf')
                cells hrect _ _ hframe (by omega)
                (fun m hm => (mem_getNeighborPositions.1 hm).2) p hpmem hfp
            · have hq0' : getRev
                  (setCell cells row col fun c => { c with isRevealed := true }) q =
                  false := by
                rw [getRev_setCell_other hqstart]
                exact hq0
              exact revealFold_sat fuel (fun b hb hc r c => (ih b hb hc r c).2)
                cells hrect _ _ hframe (by omega) q p hq0' hq1 hzq hadj hvp hfp
        · have hrw : revealCellAux (fuel + 1) cells row col =
              setCell cells row col fun c => { c with isRevealed := true } := by
            rw [revealCellAux_succ, if_neg hnv, if_neg hrf, if_neg hzero]
          constructor
          · intro _ _ _
            rw [hrw]
            exact getRev_setCell_self hx
          · intro q p hq0 hq1 hzq _ _ _
            rw [hrw] at hq1
            rcases getRev_setCell_cases hq1 with rfl | hcells
            · exfalso
              rcases zeroCellB_some hzq with ⟨y, hy, h0, h1⟩
              obtain rfl : x = y := Option.some.inj (hx.symm.trans hy)
              exact hzero ⟨by rw [hxD]; exact h0, by rw [hxD]; exact h1⟩
            · exact absurd (hq0.symm.trans hcells) (by decide)
    · constructor
      · intro hv _ _
        exact absurd hv hval
      · intro q p hq0 hq1 _ _ _ _
        rw [revealCellAux_succ, if_pos hval] at hq1
        exact absurd (hq0.symm.trans hq1) (by decide)

/-! ## Claim theorems: flood-fill reveal -/

/-- A 1-by-3 board with no mines, all-zero neighbor counts and a flag on the
middle cell; the concrete board refuting C1 as stated. -/
def flaggedRowBoard : Board :=
  [[createEmptyCell 0 0, { createEmptyCell 0 1 with isFlagged := true },
    createEmptyCell 0 2]]

/-- Shows C1 false as stated: on a correctly-counted all-zero 1-by-3 board
whose middle cell is flagged, `(0, 2)` lies in the connected zero-region of
`(0, 0)`, yet revealing `(0, 0)` leaves it unrevealed — the flood cannot
pass the flagged zero cell. -/
theorem flood_fill_claim_fails_on_flags :
    correctCountsB flaggedRowBoard = true ∧
      validB flaggedRowBoard (0, 0) = true ∧
      getRev flaggedRowBoard (0, 0) = false ∧
      getFlg flaggedRowBoard (0, 0) = false ∧
      zeroCellB flaggedRowBoard (0, 0) = true ∧
      ZPath flaggedRowBoard (0, 0) (0, 2) ∧
      validB flaggedRowBoard (0, 2) = true ∧
      getRev (revealCell flaggedRowBoard 0 0) (0, 2) = false := by
  refine ⟨by decide, by decide, by decide, by decide, by decide, ?_, by decide, by decide⟩
  exact @ZPath.step flaggedRowBoard (0, 0) (0, 1) (0, 2)
    (@ZPath.step flaggedRowBoard (0, 0) (0, 0) (0, 1) (ZPath.refl (by decide))
      (by decide) (by decide))
    (by decide) (by decide)

/-- C1 (amended): on a board with correct neighbor counts, revealing an
in-bounds, unrevealed, unflagged zero non-mine cell reveals exactly its
connected zero-region together with every cell bordering that region — in
one call — provided no cell of the region is already revealed and no cell
of the region or its border is flagged (the flood skips flagged cells and
does not expand through already-revealed ones, which the counterexample
shows is necessary). -/
theorem flood_fill_reveals_closure (cells : Board) (row col : Int)
    (hrect : rectB cells = true) (hcounts : correctCountsB cells = true)
    (hvalid : validB cells (row, col) = true)
    (hrev : getRev cells (row, col) = false) (hflg : getFlg cells (row, col) = false)
    (hzero : zeroCellB cells (row, col) = true)
    (hregion : ∀ p, ZPath cells (row, col) p → getRev cells p = false)
    (hnoflag : ∀ p, inClosure cells (row, col) p → getFlg cells p = false) :
    ∀ p : Position, validB cells p = true →
      (getRev (revealCell cells row col) p = true ↔
        getRev cells p = true ∨ inClosure cells (row, col) p) := by
  have hcompl := revealCellAux_complete (countUnrevealed cells + 1) cells hrect
    (by omega) row col
  have hmono := boardFrame_revealCell cells row col
  have hreg : ∀ z, ZPath cells (row, col) z →
      getRev (revealCell cells row col) z = true := by
    intro z hz
    induction hz with
    | refl hz0 => exact hcompl.1 hvalid hrev hflg
    | @step z' z hp hadj hzz ih =>
      refine hcompl.2 z' z (hregion z' hp) ih (zpath_zero hp) hadj ?_ ?_
      · rcases zeroCellB_some hzz with ⟨y, hy, -, -⟩
        exact (validB_iff_isSome hrect z.1 z.2).2 (by rw [hy]; rfl)
      · exact hnoflag z (Or.inr ⟨z', hp, hadj⟩)
  intro p hvp
  constructor
  · intro h
    exact revealCellAux_sound (countUnrevealed cells + 1) cells hrect row col p h
  · rintro (h | h)
    · exact boardFrame_getRev_mono hmono p h
    · rcases h with rfl | ⟨q, hq, hadj⟩
      · exact hcompl.1 hvalid hrev hflg
      · exact hcompl.2 q p (hregion q hq) (hreg q hq) (zpath_zero hq) hadj hvp
          (hnoflag p (Or.inr ⟨q, hq, hadj⟩))

/-- Applies C1 (amended) on a fresh 1-by-1 zero board: the clicked cell ends
revealed. -/
theorem flood_fill_reveals_closure_witness :
    getRev (revealCell (initializeEmptyBoard 1 1) 0 0) (0, 0) = true :=
  (flood_fill_reveals_closure (initializeEmptyBoard 1 1) 0 0 (by decide) (by decide)
    (by decide) (by decide) (by decide) (by decide)
    (fun p _ => getRev_eq_false_of_all (by decide) p)
    (fun p _ => getFlg_eq_false_of_all (by decide) p)
    (0, 0) (by decide)).2 (Or.inr (Or.inl rfl))

end GridGuard
